import Mathlib

/-!
Verification of the JSON extraction/repair core, the prompt template and the
plan export of the Nutrition Assistant (src/main.py).

The Python source is shallowly embedded:

* `Json` models the values `json.loads` produces (dicts keep insertion order,
  a later duplicate key overwrites the value at the first occurrence's slot).
  Integer literals become `Json.num`; literals with a fraction or exponent
  become `Json.numF` carrying the literal text (the embedding does not model
  IEEE-754 evaluation of float literals, nor the non-standard `NaN/Infinity`
  extensions and lone-surrogate escapes that CPython additionally tolerates).
* `json_loads` models strict `json.loads`, `Json.dump` models
  `json.dumps(plan, indent=2)` (`ensure_ascii=True`).
* `step1BoundaryExtract` models `re.search(r'({[\s\S]*})', raw_output)`
  (main.py lines 135-141): the match starts at the first `{` that has some
  `}` after it and extends greedily to the last `}` of the whole text.
* `fenceSub` models `re.sub(r'```(?:json)?\s*|\s*```', '', json_str)`
  (line 144) and `pyStrip` the following `.strip()`.
* `commaSub` models `re.sub(r',(\s*[}\]])', r'\1', json_str)` (line 147):
  a left-to-right, non-overlapping single pass, not a fixpoint iteration.
* `extract_and_parse_json` chains the stages (lines 131-158); a parse error
  is caught and turned into `none`, and `extraction_display` models the
  diagnostic `st.text_area("Problematic JSON Output", raw_output, ...)`.
* `format_prompt` models `create_prompt_template().format_prompt(**user_data)`
  (lines 35-127): the fixed template text with every `{field}` placeholder
  replaced by the rendered field value.
-/

/-- JSON values as produced by `json.loads`. -/
inductive Json where
  | null : Json
  | bool (b : Bool) : Json
  | num (n : Int) : Json
  | numF (lit : String) : Json
  | str (s : String) : Json
  | arr (elems : List Json) : Json
  | obj (members : List (String × Json)) : Json

/-- Whether a value is a JSON object (dict). -/
def Json.isObjB : Json → Bool
  | .obj _ => true
  | _ => false

/-- The four whitespace characters the strict JSON grammar allows. -/
def isJsonWs (c : Char) : Bool :=
  c = ' ' || c = '\t' || c = '\n' || c = '\r'

/-- Whitespace as matched by Python's `str.strip` and by `\s` in `re`
patterns over `str` (Unicode whitespace). -/
def isPyWs (c : Char) : Bool :=
  c = ' ' || c = '\t' || c = '\n' || c = '\r' || c = '\x0b' || c = '\x0c' ||
  c = '\x1c' || c = '\x1d' || c = '\x1e' || c = '\x1f' || c = '\x85' ||
  c = '\u00A0' || c = '\u1680' ||
  ('\u2000' ≤ c && c ≤ '\u200A') ||
  c = '\u2028' || c = '\u2029' || c = '\u202F' || c = '\u205F' || c = '\u3000'

/-- Drop leading strict-JSON whitespace. -/
def skipWs (l : List Char) : List Char := l.dropWhile isJsonWs

/-- Keep the characters of `l` up to and including the last `'\x7d'`. -/
def upToLastClose (l : List Char) : List Char :=
  (l.reverse.dropWhile (fun c => c ≠ '\x7d')).reverse

/-- `re.search(r'({[\s\S]*})', raw)`: the leftmost `{` that is followed by a
`}` somewhere later starts the match, which greedily runs to the last `}` of
the whole text.  `none` when the pattern does not occur. -/
def step1BoundaryExtract : List Char → Option (List Char)
  | [] => none
  | c :: rest =>
    if c = '\x7b' && rest.contains '\x7d' then some ('\x7b' :: upToLastClose rest)
    else step1BoundaryExtract rest

/-- Lines 138-141: use the regex match when there is one, the raw text
otherwise. -/
def step1 (raw : List Char) : List Char :=
  match step1BoundaryExtract raw with
  | some t => t
  | none => raw

/-- Length of the leading run of `\s` characters. -/
def wsRunLen (l : List Char) : Nat := (l.takeWhile isPyWs).length

/-- Attempt of `r'```(?:json)?\s*|\s*```'` at the head of `l`: the number of
characters the leftmost-biased alternation consumes, `none` if neither branch
matches here.  The first branch needs the three backticks immediately, takes
an optional `json` tag and a greedy `\s*`; the second branch takes a `\s` run
that must be followed directly by three backticks, which it also consumes
(with an empty run it coincides with the first branch, so it is only tried
with a nonempty one).  Any returned length is at least 3. -/
def fenceMatchLen (l : List Char) : Option Nat :=
  if l.take 3 = ['\x60', '\x60', '\x60'] then
    if (l.drop 3).take 4 = ['j', 's', 'o', 'n'] then
      some (7 + wsRunLen (l.drop 7))
    else
      some (3 + wsRunLen (l.drop 3))
  else
    if 1 ≤ wsRunLen l && (l.drop (wsRunLen l)).take 3 = ['\x60', '\x60', '\x60'] then
      some (wsRunLen l + 3)
    else none

/-- `re.sub(r'```(?:json)?\s*|\s*```', '', json_str)`: scan left to right,
deleting each leftmost non-overlapping match.  A match at `c :: t` always
consumes at least three characters, so dropping `n - 1` characters from `t`
is the same as dropping `n` from `c :: t`. -/
def fenceSubF : Nat → List Char → List Char
  | _, [] => []
  | 0, l => l
  | fuel + 1, c :: t =>
    match fenceMatchLen (c :: t) with
    | some n => fenceSubF fuel (t.drop (n - 1))
    | none => c :: fenceSubF fuel t

/-- The substitution itself; every step consumes at least one character, so
fuel equal to the length never runs out. -/
def fenceSub (l : List Char) : List Char := fenceSubF l.length l

/-- Python `str.strip()`. -/
def pyStrip (l : List Char) : List Char :=
  ((l.dropWhile isPyWs).reverse.dropWhile isPyWs).reverse

/-- Whether a `\s*`-separated `}` or `]` follows, i.e. whether a `,` at the
current position begins a match of `r',(\s*[}\]])'`. -/
def closerAfterWs (l : List Char) : Bool :=
  match l.dropWhile isPyWs with
  | c :: _ => c = '\x7d' || c = ']'
  | [] => false

/-- `re.sub(r',(\s*[}\]])', r'\1', json_str)`: delete each comma that starts
a leftmost non-overlapping match, keep the whitespace and the closer, and
resume scanning after the closer. -/
def commaSubF : Nat → List Char → List Char
  | _, [] => []
  | 0, l => l
  | fuel + 1, c :: t =>
    if c = ',' && closerAfterWs t then
      t.take (wsRunLen t + 1) ++ commaSubF fuel (t.drop (wsRunLen t + 1))
    else
      c :: commaSubF fuel t

/-- The substitution itself; every step consumes at least one character, so
fuel equal to the length never runs out. -/
def commaSub (l : List Char) : List Char := commaSubF l.length l

/-- Decimal value of a digit character. -/
def digitVal (c : Char) : Nat := c.toNat - 48

/-- Value of a big-endian run of decimal digit characters. -/
def digitsToNat (ds : List Char) : Nat := ds.foldl (fun a c => a * 10 + digitVal c) 0

/-- The integer part of the number regex `(-?(?:0|[1-9]\d*))`: a single `0`,
or a nonzero digit followed by a greedy digit run. -/
def parseIntDigits : List Char → Option (List Char × List Char)
  | [] => none
  | c :: r =>
    if c = '0' then some (['0'], r)
    else if c.isDigit then some (c :: r.takeWhile Char.isDigit, r.dropWhile Char.isDigit)
    else none

/-- The optional fraction group `(\.\d+)?`: consumed characters (possibly
none) and the rest. -/
def parseFrac (l : List Char) : List Char × List Char :=
  match l with
  | [] => ([], [])
  | c :: r =>
    if c = '.' then
      if (r.takeWhile Char.isDigit).isEmpty then ([], c :: r)
      else (c :: r.takeWhile Char.isDigit, r.dropWhile Char.isDigit)
    else ([], c :: r)

/-- The optional exponent group `([eE][-+]?\d+)?`. -/
def parseExp (l : List Char) : List Char × List Char :=
  match l with
  | e :: s :: r2 =>
    if e = 'e' || e = 'E' then
      if s = '+' || s = '-' then
        if (r2.takeWhile Char.isDigit).isEmpty then ([], e :: s :: r2)
        else (e :: s :: r2.takeWhile Char.isDigit, r2.dropWhile Char.isDigit)
      else
        if ((s :: r2).takeWhile Char.isDigit).isEmpty then ([], e :: s :: r2)
        else (e :: (s :: r2).takeWhile Char.isDigit, (s :: r2).dropWhile Char.isDigit)
    else ([], e :: s :: r2)
  | l => ([], l)

/-- `json.decoder.NUMBER_RE` followed by the int/float decision: a literal
without fraction and exponent becomes a Python `int`, any other becomes a
float (kept as its literal text in this embedding). -/
def parseNumberCore (sgn l1 : List Char) : Option (Json × List Char) :=
  match parseIntDigits l1 with
  | none => none
  | some (ids, l2) =>
    if (parseFrac l2).1.isEmpty && (parseExp (parseFrac l2).2).1.isEmpty then
      some (.num ((if sgn.isEmpty then 1 else -1) * (digitsToNat ids : Int)), l2)
    else
      some (.numF (String.mk (sgn ++ ids ++ (parseFrac l2).1 ++ (parseExp (parseFrac l2).2).1)),
        (parseExp (parseFrac l2).2).2)

/-- The sign handling of `NUMBER_RE`: an optional leading `-`. -/
def parseNumber (l : List Char) : Option (Json × List Char) :=
  match l with
  | [] => none
  | c :: r => if c = '-' then parseNumberCore ['-'] r else parseNumberCore [] (c :: r)

/-- The character named by a single-letter escape. -/
def escChar? (e : Char) : Option Char :=
  if e = '"' then some '"'
  else if e = '\\' then some '\\'
  else if e = '/' then some '/'
  else if e = 'b' then some '\x08'
  else if e = 'f' then some '\x0c'
  else if e = 'n' then some '\n'
  else if e = 'r' then some '\r'
  else if e = 't' then some '\t'
  else none

/-- Value of one hexadecimal digit character. -/
def hexVal? (c : Char) : Option Nat :=
  if '0' ≤ c && c ≤ '9' then some (c.toNat - 48)
  else if 'a' ≤ c && c ≤ 'f' then some (c.toNat - 87)
  else if 'A' ≤ c && c ≤ 'F' then some (c.toNat - 55)
  else none

/-- Value of a four-digit hexadecimal escape body. -/
def hex4? (a b c d : Char) : Option Nat := do
  let x ← hexVal? a
  let y ← hexVal? b
  let z ← hexVal? c
  let w ← hexVal? d
  pure (((x * 16 + y) * 16 + z) * 16 + w)

/- Body of a JSON string literal, after the opening quote: the decoded
characters and the rest after the closing quote.  Escapes follow
`json.decoder.py_scanstring` in strict mode (raw control characters are
rejected); a `\uXXXX` high surrogate must be completed by a low surrogate
(the embedding rejects lone surrogates, which CPython would keep). -/
mutual

/-- String literal body scanner (after the opening quote). -/
def parseStringBody : List Char → Option (List Char × List Char)
  | [] => none
  | c :: r =>
    if c = '"' then some ([], r)
    else if c = '\\' then parseStringEscape r
    else if c.toNat < 0x20 then none
    else (parseStringBody r).map (fun p => (c :: p.1, p.2))

/-- The part of a string literal after a backslash. -/
def parseStringEscape : List Char → Option (List Char × List Char)
  | 'u' :: a :: b :: c :: d :: r =>
    (hex4? a b c d).bind (fun code =>
      if code < 0xD800 || 0xDFFF < code then
        (parseStringBody r).map (fun p => (Char.ofNat code :: p.1, p.2))
      else if code ≤ 0xDBFF then
        parseLowSurrogate code r
      else none)
  | e :: r =>
    (escChar? e).bind (fun c => (parseStringBody r).map (fun p => (c :: p.1, p.2)))
  | [] => none

/-- The low-surrogate escape that must complete a high surrogate. -/
def parseLowSurrogate (code : Nat) : List Char → Option (List Char × List Char)
  | '\\' :: 'u' :: a2 :: b2 :: c2 :: d2 :: r2 =>
    (hex4? a2 b2 c2 d2).bind (fun lo =>
      if 0xDC00 ≤ lo && lo ≤ 0xDFFF then
        (parseStringBody r2).map (fun p =>
          (Char.ofNat (0x10000 + (code - 0xD800) * 0x400 + (lo - 0xDC00)) :: p.1, p.2))
      else none)
  | _ => none

end

/-- The value at the first occurrence of a key. -/
def findValue (k : String) : List (String × Json) → Option Json
  | [] => none
  | kv :: kvs => if kv.1 = k then some kv.2 else findValue k kvs

/-- Remove the first occurrence of a key. -/
def removeKey (k : String) : List (String × Json) → List (String × Json)
  | [] => []
  | kv :: kvs => if kv.1 = k then kvs else kv :: removeKey k kvs

/-- `dict` insertion semantics for a member parsed in front of the already
parsed later members: a duplicated key keeps the front position but the later
value wins (CPython: assignment order). -/
def combineKV (k : String) (v : Json) (kvs : List (String × Json)) : List (String × Json) :=
  match findValue k kvs with
  | some w => (k, w) :: removeKey k kvs
  | none => (k, v) :: kvs

mutual

/-- One JSON value at the head of `l` (no leading whitespace skipped), as in
`json.scanner.py_make_scanner`.  The fuel only decreases on recursion into
members and elements; `json_loads` supplies more fuel than any input can
use. -/
def parseValue : Nat → List Char → Option (Json × List Char)
  | 0, _ => none
  | fuel + 1, l =>
    match l with
    | [] => none
    | c :: r =>
      if c = '\x7b' then
        match skipWs r with
        | [] => Option.map (fun p => (Json.obj p.1, p.2)) (parseMembers fuel [])
        | c2 :: r2 =>
          if c2 = '\x7d' then some (.obj [], r2)
          else Option.map (fun p => (Json.obj p.1, p.2)) (parseMembers fuel (c2 :: r2))
      else if c = '[' then
        match skipWs r with
        | [] => Option.map (fun p => (Json.arr p.1, p.2)) (parseElems fuel [])
        | c2 :: r2 =>
          if c2 = ']' then some (.arr [], r2)
          else Option.map (fun p => (Json.arr p.1, p.2)) (parseElems fuel (c2 :: r2))
      else if c = '"' then
        match parseStringBody r with
        | some (cs, rest) => some (.str (String.mk cs), rest)
        | none => none
      else if c = 't' then
        if r.take 3 = ['r', 'u', 'e'] then some (.bool true, r.drop 3) else none
      else if c = 'f' then
        if r.take 4 = ['a', 'l', 's', 'e'] then some (.bool false, r.drop 4) else none
      else if c = 'n' then
        if r.take 3 = ['u', 'l', 'l'] then some (.null, r.drop 3) else none
      else if c = '-' || c.isDigit then parseNumber (c :: r)
      else none

/-- Members of an object, from the first key (position after `{` + ws, known
not to start with `}`): `"key" ws : ws value ws` then `,`/`}`. -/
def parseMembers : Nat → List Char → Option (List (String × Json) × List Char)
  | 0, _ => none
  | fuel + 1, l =>
    match l with
    | [] => none
    | c :: r =>
      if c = '"' then
      match parseStringBody r with
      | some (kcs, r1) =>
        match skipWs r1 with
        | ':' :: r3 =>
          match parseValue fuel (skipWs r3) with
          | some (v, r4) =>
            match skipWs r4 with
            | ',' :: r6 =>
              match parseMembers fuel (skipWs r6) with
              | some (kvs, r7) => some (combineKV (String.mk kcs) v kvs, r7)
              | none => none
            | '\x7d' :: r6 => some ([(String.mk kcs, v)], r6)
            | _ => none
          | none => none
        | _ => none
      | none => none
      else none

/-- Elements of an array, from the first element (known not to start with
`]`). -/
def parseElems : Nat → List Char → Option (List Json × List Char)
  | 0, _ => none
  | fuel + 1, l =>
    match parseValue fuel l with
    | some (v, r1) =>
      match skipWs r1 with
      | ',' :: r2 =>
        match parseElems fuel (skipWs r2) with
        | some (vs, r3) => some (v :: vs, r3)
        | none => none
      | ']' :: r2 => some ([v], r2)
      | _ => none
    | none => none

end

/-- Strict `json.loads` on a character list: skip leading whitespace, scan
one value, require only whitespace after it. -/
def json_loads_list (l : List Char) : Option Json :=
  let l1 := skipWs l
  match parseValue (l1.length + 1) l1 with
  | some (j, rest) => if skipWs rest = [] then some j else none
  | none => none

/-- Strict `json.loads`. -/
def json_loads (s : String) : Option Json := json_loads_list s.data

/-- `json.loads` with the raised `JSONDecodeError` made explicit. -/
def json_loads_exc (s : String) : Except String Json :=
  match json_loads s with
  | some j => .ok j
  | none => .error "JSONDecodeError"

/-- The candidate text extract_and_parse_json hands to `json.loads`: regex
boundary extraction, fence stripping, `strip()`, trailing-comma repair
(main.py lines 134-147). -/
def extract_candidate (raw : String) : List Char :=
  commaSub (pyStrip (fenceSub (step1 raw.data)))

/-- The body of the `try:` block of `extract_and_parse_json`, with the
`json.JSONDecodeError` it can raise made explicit. -/
def extract_core (raw : String) : Except String Json :=
  json_loads_exc (String.mk (extract_candidate raw))

/-- `extract_and_parse_json` (main.py lines 131-158): any raised error is
caught and `None` is returned. -/
def extract_and_parse_json (raw : String) : Option Json :=
  match extract_core raw with
  | .ok j => some j
  | .error _ => none

/-- The diagnostic text area shown on a parse failure (line 154): the raw
input is displayed verbatim; nothing is shown on success. -/
def extraction_display (raw : String) : Option String :=
  match extract_core raw with
  | .error _ => some raw
  | .ok _ => none

/-- Lowercase hexadecimal digit character. -/
def hexDigitCh (d : Nat) : Char :=
  if d < 10 then Char.ofNat (48 + d) else Char.ofNat (87 + d)

/-- Four lowercase hexadecimal digits, as in Python's `'\\u%04x'`. -/
def hexShow4 (n : Nat) : List Char :=
  [hexDigitCh (n / 4096 % 16), hexDigitCh (n / 256 % 16),
   hexDigitCh (n / 16 % 16), hexDigitCh (n % 16)]

/-- `json.encoder` escaping of one character with `ensure_ascii=True`:
`"`/`\\` and the named control escapes, `\\uXXXX` for other characters
outside `0x20..0x7E`, a surrogate pair for astral characters. -/
def dumpChar (c : Char) : List Char :=
  if c = '"' then ['\\', '"']
  else if c = '\\' then ['\\', '\\']
  else if c = '\x08' then ['\\', 'b']
  else if c = '\x0c' then ['\\', 'f']
  else if c = '\n' then ['\\', 'n']
  else if c = '\r' then ['\\', 'r']
  else if c = '\t' then ['\\', 't']
  else if 0x20 ≤ c.toNat && c.toNat ≤ 0x7E then [c]
  else if c.toNat < 0x10000 then '\\' :: 'u' :: hexShow4 c.toNat
  else
    ('\\' :: 'u' :: hexShow4 (0xD800 + (c.toNat - 0x10000) / 0x400)) ++
    ('\\' :: 'u' :: hexShow4 (0xDC00 + (c.toNat - 0x10000) % 0x400))

/-- Escaped characters of a string literal body, closing quote included. -/
def dumpStringBody : List Char → List Char
  | [] => ['"']
  | c :: r => dumpChar c ++ dumpStringBody r

/-- A full JSON string literal. -/
def dumpString (s : String) : List Char := '"' :: dumpStringBody s.data

/-- Big-endian decimal digits of a natural number, as characters. -/
def natDigitsBE (m : Nat) : List Char :=
  if m = 0 then ['0'] else ((Nat.digits 10 m).map (fun d => Char.ofNat (48 + d))).reverse

/-- `str(int)`: minimal decimal form, `-` sign for negatives. -/
def intLit (n : Int) : List Char :=
  (if n < 0 then ['-'] else []) ++ natDigitsBE n.natAbs

/-- An indentation run. -/
def spacesN (n : Nat) : List Char := List.replicate n ' '

mutual

/-- `json.dumps(value, indent=2)` at nesting indentation `ind` (so with the
default separators `(',', ': ')`, each item on its own line indented by
`ind + 2`, and the closer indented by `ind`; empty containers stay on one
line).  A float is printed as its literal in this embedding. -/
def Json.dump : Json → Nat → List Char
  | .null, _ => ['n', 'u', 'l', 'l']
  | .bool true, _ => ['t', 'r', 'u', 'e']
  | .bool false, _ => ['f', 'a', 'l', 's', 'e']
  | .num n, _ => intLit n
  | .numF lit, _ => lit.data
  | .str s, _ => dumpString s
  | .arr [], _ => ['[', ']']
  | .arr (e :: es), ind =>
    '[' :: dumpElems (e :: es) (ind + 2) ++ '\n' :: spacesN ind ++ [']']
  | .obj [], _ => ['\x7b', '\x7d']
  | .obj (kv :: kvs), ind =>
    '\x7b' :: dumpMembers (kv :: kvs) (ind + 2) ++ '\n' :: spacesN ind ++ ['\x7d']

/-- The `,`-joined element items, each preceded by a newline and its
indentation. -/
def dumpElems : List Json → Nat → List Char
  | [], _ => []
  | [e] , ind => '\n' :: spacesN ind ++ e.dump ind
  | e :: e2 :: es, ind =>
    '\n' :: spacesN ind ++ e.dump ind ++ ',' :: dumpElems (e2 :: es) ind

/-- The `,`-joined member items `"key": value`. -/
def dumpMembers : List (String × Json) → Nat → List Char
  | [], _ => []
  | [(k, v)], ind => '\n' :: spacesN ind ++ dumpString k ++ ':' :: ' ' :: v.dump ind
  | (k, v) :: kv2 :: kvs, ind =>
    '\n' :: spacesN ind ++ dumpString k ++ ':' :: ' ' :: v.dump ind ++
      ',' :: dumpMembers (kv2 :: kvs) ind

end

/-- `json.dumps(plan, indent=2)` as used for the download button
(main.py line 512). -/
def json_dumps_indent2 (j : Json) : String := String.mk (j.dump 0)

/-- What follows the first member item: nothing, or a comma and the rest. -/
def membersSep (kvs : List (String × Json)) (ind : Nat) : List Char :=
  match kvs with
  | [] => []
  | _ => ',' :: dumpMembers kvs ind

/-- What follows the first element item. -/
def elemSep (es : List Json) (ind : Nat) : List Char :=
  match es with
  | [] => []
  | _ => ',' :: dumpElems es ind


/-- Template text before the first placeholder, split at the phrase that
labels the duration. -/
def promptSeg0a : String := "\n    You are NutriAI, an advanced AI nutritionist. Generate a "

def promptSeg0 : String := promptSeg0a ++ "personalized "

def promptSeg1b : String := " in VALID JSON format.\n\n    === USER PROFILE ===\n    - Name: "

def promptSeg1 : String := "-day diet plan" ++ promptSeg1b

def promptSeg2 : String := "\n    - Age: "

def promptSeg3 : String := "\n    - Weight: "

def promptSeg4 : String := " kg\n    - Height: "

def promptSeg5 : String := " cm\n    - Activity: "

def promptSeg6 : String := "\n    - Goals: "

def promptSeg7 : String := " (primary), "

def promptSeg8 : String := " (secondary)\n    - Preferences: "

def promptSeg9 : String := "\n    - Requirements: "

def promptSeg10 : String := "\n    - Restrictions: "

def promptSeg11 : String := "\n    - Region: "

def promptSeg12 : String := "\n    - Cuisines: "

def promptSeg13 : String := "\n    - Budget: "

def promptSeg14 : String := "\n    - Meal Frequency: "

def promptSeg15 : String := "\n\n    === REGIONAL CONSIDERATIONS ===\n    Incorporate authentic and regionally appropriate foods based on the user's region ("

def promptSeg16 : String := "). Focus on locally available ingredients and traditional cooking methods common in that area. Adjust spice levels, cooking techniques, and meal compositions to align with regional dietary patterns.\n\n    === OUTPUT FORMAT ===\n    Return ONLY a JSON object with no other text around it. The JSON must follow this structure:\n    \x7b\n        \"metadata\": \x7b\n            \"generated_at\": \""

def promptSeg17a : String := "\",\n            "

def promptSeg17 : String := promptSeg17a ++ "\"plan_duration\": "

def promptSeg18 : String := "\n        \x7d,\n        \"user_profile\": \x7b\n            \"bmi\": 22.1,\n            \"bmr\": 1650,\n            \"daily_calories\": 2200,\n            \"macros\": \x7b\n                \"protein\": \x7b\"percent\": 30, \"grams\": 165\x7d,\n                \"carbs\": \x7b\"percent\": 40, \"grams\": 220\x7d,\n                \"fats\": \x7b\"percent\": 30, \"grams\": 73\x7d\n            \x7d,\n            \"micro_nutrients\": [\"iron\", \"vitamin D\"],\n            \"considerations\": []\n        \x7d,\n        \"daily_plans\": \x7b\n            \"day_1\": \x7b\n                \"meals\": \x7b\n                    \"breakfast\": \x7b\n                        \"name\": \"Meal Name\",\n                        \"desc\": \"Description\",\n                        \"ingredients\": [\"item1\", \"item2\"],\n                        \"nutrition\": \x7b\n                            \"calories\": 350,\n                            \"protein\": 20,\n                            \"carbs\": 45,\n                            \"fats\": 8,\n                            \"fiber\": 5\n                        \x7d,\n                        \"prep\": \"Preparation steps\",\n                        \"time\": \"08:00\"\n                    \x7d\n                \x7d,\n                \"snacks\": \x7b\n                    \"morning_snack\": \x7b\n                        \"name\": \"Snack Name\",\n                        \"nutrition\": \x7b\n                            \"calories\": 150,\n                            \"protein\": 5,\n                            \"carbs\": 20,\n                            \"fats\": 5\n                        \x7d\n                    \x7d\n                \x7d,\n                \"hydration\": \x7b\n                    \"water\": \"2L minimum\",\n                    \"other\": [\"herbal tea\", \"electrolyte drink\"]\n                \x7d\n            \x7d\n        \x7d,\n        \"shopping_list\": \x7b\n            \"proteins\": [\"chicken\", \"tofu\"],\n            \"carbs\": [\"quinoa\", \"sweet potatoes\"],\n            \"vegetables\": [\"spinach\", \"broccoli\"],\n            \"fruits\": [\"berries\", \"bananas\"],\n            \"other\": [\"olive oil\", \"nuts\"]\n        \x7d,\n        \"recommendations\": \x7b\n            \"general\": \"General advice\",\n            \"supplements\": [\"vitamin D\", \"omega-3\"],\n            \"tracking\": \"Progress tracking tips\"\n        \x7d\n    \x7d\n\n    IMPORTANT: Return ONLY the JSON - no explanation, no markdown code blocks, no additional text.\n    "

/-- The prompt produced by `create_prompt_template().format_prompt(**user_data)`
(main.py lines 35-127): the fixed template with each placeholder replaced by
the rendered field value; `timestamp` was bound by `.partial` at template
creation time. -/
def format_prompt (timestamp duration name age weight height activity_level goal secondary_goals dietary_preferences dietary_requirements restrictions region preferred_cuisines budget meal_frequency : String) : String :=
  promptSeg0 ++
  duration ++
  promptSeg1 ++
  name ++
  promptSeg2 ++
  age ++
  promptSeg3 ++
  weight ++
  promptSeg4 ++
  height ++
  promptSeg5 ++
  activity_level ++
  promptSeg6 ++
  goal ++
  promptSeg7 ++
  secondary_goals ++
  promptSeg8 ++
  dietary_preferences ++
  promptSeg9 ++
  dietary_requirements ++
  promptSeg10 ++
  restrictions ++
  promptSeg11 ++
  region ++
  promptSeg12 ++
  preferred_cuisines ++
  promptSeg13 ++
  budget ++
  promptSeg14 ++
  meal_frequency ++
  promptSeg15 ++
  region ++
  promptSeg16 ++
  timestamp ++
  promptSeg17 ++
  duration ++
  promptSeg18

/-- Whether three consecutive backticks occur anywhere (iff the fence regex
has a match). -/
def hasFence : List Char → Bool
  | [] => false
  | c :: t => (c = '\x60' && t.take 2 = ['\x60', '\x60']) || hasFence t

/-- Whether `r',(\s*[}\]])'` has a match anywhere. -/
def hasCommaPat : List Char → Bool
  | [] => false
  | c :: t => (c = ',' && closerAfterWs t) || hasCommaPat t

/-- Substring containment. -/
def ContainsSub (h n : List Char) : Prop := ∃ a b, h = a ++ n ++ b

/-- Values representable by this embedding's parser: float literals re-parse
to themselves, dict keys are distinct.  Every `json_loads` result is of this
shape. -/
inductive JWF : Json → Prop where
  | null : JWF .null
  | bool (b : Bool) : JWF (.bool b)
  | num (n : Int) : JWF (.num n)
  | numF (lit : String) : parseNumber lit.data = some (.numF lit, []) → JWF (.numF lit)
  | str (s : String) : JWF (.str s)
  | arr (es : List Json) : (∀ e ∈ es, JWF e) → JWF (.arr es)
  | obj (kvs : List (String × Json)) : (∀ kv ∈ kvs, JWF kv.2) →
      (kvs.map Prod.fst).Nodup → JWF (.obj kvs)

mutual

/-- Fuel that suffices to parse a serialization of the value. -/
def measureJ : Json → Nat
  | .arr es => 1 + measureElems es
  | .obj kvs => 1 + measureMembers kvs
  | _ => 1

/-- Fuel that suffices for the element loop. -/
def measureElems : List Json → Nat
  | [] => 1
  | e :: es => 1 + measureJ e + measureElems es

/-- Fuel that suffices for the member loop. -/
def measureMembers : List (String × Json) → Nat
  | [] => 1
  | kv :: kvs => 1 + measureJ kv.2 + measureMembers kvs

end

/-- Shape of the integer-digit group of `NUMBER_RE`. -/
def IntDigitsOk (ds : List Char) : Prop :=
  ds = ['0'] ∨ ∃ c t, ds = c :: t ∧ c.isDigit = true ∧ c ≠ '0' ∧ ∀ x ∈ t, x.isDigit = true

/-- Shape of a consumed fraction group. -/
def FracOk (fr : List Char) : Prop :=
  fr = [] ∨ ∃ ds, fr = '.' :: ds ∧ ds ≠ [] ∧ ∀ x ∈ ds, x.isDigit = true

/-- Shape of a consumed exponent group. -/
def ExpOk (ex : List Char) : Prop :=
  ex = [] ∨ ∃ e s ds, (e = 'e' ∨ e = 'E') ∧ (s = ([] : List Char) ∨ s = ['+'] ∨ s = ['-']) ∧
    ex = e :: (s ++ ds) ∧ ds ≠ [] ∧ ∀ x ∈ ds, x.isDigit = true

/-- Whether the next character cannot extend a number literal. -/
def numBoundary : List Char → Bool
  | [] => true
  | c :: _ => !c.isDigit && !(c = '.') && !(c = 'e') && !(c = 'E')

/-- C4: on the prose + json-tagged fence + trailing-comma input of the
scenario, extraction returns exactly the object with `a = 1` and
`b = [1, 2]`. -/
theorem c4_fenced_trailing_comma_scenario :
    extract_and_parse_json "Here is your plan:\n```json\n\x7b\"a\":1,\"b\":[1,2,],\x7d\n```\nEnjoy!" =
      some (Json.obj [("a", Json.num 1), ("b", Json.arr [Json.num 1, Json.num 2])]) := rfl

/-- C10: an input without `{` whose whole text is a JSON scalar or array is
returned as a success, and the result is not an object, so it cannot have the
NutritionPlan document shape. -/
theorem c10_nonobject_success :
    extract_and_parse_json "42" = some (Json.num 42) ∧
    (Json.num 42).isObjB = false ∧
    extract_and_parse_json "[1,2]" = some (Json.arr [Json.num 1, Json.num 2]) ∧
    (Json.arr [Json.num 1, Json.num 2]).isObjB = false ∧
    ("42".data.contains '\x7b') = false ∧ ("[1,2]".data.contains '\x7b') = false :=
  ⟨rfl, rfl, rfl, rfl, rfl, rfl⟩

/-- C6: extraction is a pure function of the input text: equal raw inputs
give equal parse results and equal diagnostic output. -/
theorem c6_extraction_deterministic (s t : String) (h : s = t) :
    extract_and_parse_json s = extract_and_parse_json t ∧
      extraction_display s = extraction_display t := by
  subst h
  exact ⟨rfl, rfl⟩

/-- Witness for C6 at a concrete input. -/
theorem c6_extraction_deterministic_witness :
    extract_and_parse_json "\x7b\"a\":1\x7d" = extract_and_parse_json "\x7b\"a\":1\x7d" ∧
      extraction_display "\x7b\"a\":1\x7d" = extraction_display "\x7b\"a\":1\x7d" :=
  c6_extraction_deterministic "\x7b\"a\":1\x7d" "\x7b\"a\":1\x7d" rfl

/-- C9: the function is total.  Every error of the extraction body is caught
and turned into `None`; on every input the function returns either a value or
`None`, never propagating the error. -/
theorem c9_errors_caught (s : String) :
    (∀ e, extract_core s = .error e → extract_and_parse_json s = none) ∧
    ((∃ j, extract_and_parse_json s = some j) ∨ extract_and_parse_json s = none) := by
  constructor
  · intro e he
    unfold extract_and_parse_json
    rw [he]
  · unfold extract_and_parse_json
    cases extract_core s with
    | ok j => exact Or.inl ⟨j, rfl⟩
    | error e => exact Or.inr rfl

/-- Witness for C9: a failing input reaches the catch and yields `None`. -/
theorem c9_errors_caught_witness : extract_and_parse_json "not json at all" = none :=
  (c9_errors_caught "not json at all").1 "JSONDecodeError" rfl

/-- C5 fails as stated: `42` contains no `{`, yet extraction succeeds with
the number 42 instead of producing a failure. -/
theorem c5_counterexample :
    ("42".data.contains '\x7b') = false ∧
    extract_and_parse_json "42" = some (Json.num 42) ∧
    extract_and_parse_json "42" ≠ none := by
  refine ⟨rfl, rfl, ?_⟩
  intro h
  rw [show extract_and_parse_json "42" = some (Json.num 42) from rfl] at h
  exact Option.noConfusion h

/-- C5 amended: for an input with no `{` whose candidate text (after fence
stripping, trimming and comma repair) is not valid JSON, extraction returns
`None` and the raw input is preserved verbatim for the diagnostic display;
in particular for the empty input and for `not json at all`. -/
theorem c5_no_brace_failure :
    (∀ s : String, s.data.contains '\x7b' = false →
        json_loads (String.mk (extract_candidate s)) = none →
        extract_and_parse_json s = none ∧ extraction_display s = some s) ∧
    extract_and_parse_json "" = none ∧
    extract_and_parse_json "not json at all" = none ∧
    extraction_display "not json at all" = some "not json at all" := by
  refine ⟨?_, rfl, rfl, rfl⟩
  intro s _ h2
  have hc : extract_core s = .error "JSONDecodeError" := by
    unfold extract_core json_loads_exc
    rw [h2]
  constructor
  · unfold extract_and_parse_json
    rw [hc]
  · unfold extraction_display
    rw [hc]

/-- Witness for C5 (amended) at a concrete brace-free non-JSON input. -/
theorem c5_no_brace_failure_witness :
    extract_and_parse_json "nope" = none ∧ extraction_display "nope" = some "nope" :=
  c5_no_brace_failure.1 "nope" rfl rfl

/-- C1 fails as stated: the four-character input `"{}"` is a valid JSON
document (a string), but extraction hands the brace-bounded substring to the
parser and returns the empty object instead of that string. -/
theorem c1_counterexample :
    json_loads "\"\x7b\x7d\"" = some (Json.str "\x7b\x7d") ∧
    extract_and_parse_json "\"\x7b\x7d\"" = some (Json.obj []) ∧
    Json.str "\x7b\x7d" ≠ Json.obj [] := by
  refine ⟨rfl, rfl, ?_⟩
  intro h
  exact Json.noConfusion h

/-- C2 fails as stated: with leading prose that contains braces, the
boundary heuristic starts at the prose brace, the parse fails and extraction
returns nothing instead of the fenced object. -/
theorem c2_counterexample :
    json_loads "\x7b\"a\":1\x7d" = some (Json.obj [("a", Json.num 1)]) ∧
    extract_and_parse_json "The plan \x7bdraft\x7d:\n```json\n\x7b\"a\":1\x7d\n```\nEnjoy" = none :=
  ⟨rfl, rfl⟩

/-- C3 fails as stated: in `{"a": ",}",}` the only syntax error is the single
trailing comma before the final `}`, but the repair also deletes the comma
inside the string value, so extraction returns `{"a": "}"}` instead of
`{"a": ",}"}`. -/
theorem c3_counterexample :
    extract_and_parse_json "\x7b\"a\": \",\x7d\",\x7d" = some (Json.obj [("a", Json.str "\x7d")]) ∧
    json_loads "\x7b\"a\": \",\x7d\"\x7d" = some (Json.obj [("a", Json.str ",\x7d")]) ∧
    Json.obj [("a", Json.str "\x7d")] ≠ Json.obj [("a", Json.str ",\x7d")] := by
  refine ⟨rfl, rfl, ?_⟩
  intro h
  simp only [Json.obj.injEq, List.cons.injEq, Prod.mk.injEq, Json.str.injEq, and_true] at h
  exact absurd h.2 (by decide)

theorem dropWhileB_append_all (p : Char → Bool) (a b : List Char)
    (h : ∀ c ∈ a, p c = true) : (a ++ b).dropWhile p = b.dropWhile p := by
  induction a with
  | nil => rfl
  | cons x xs ih =>
    simp only [List.cons_append, List.dropWhile_cons]
    rw [h x (List.mem_cons_self x xs)]
    exact ih (fun c hc => h c (List.mem_cons_of_mem x hc))

theorem dropWhileB_append_nil (p : Char → Bool) (a b : List Char)
    (h : a.dropWhile p = []) : (a ++ b).dropWhile p = b.dropWhile p :=
  dropWhileB_append_all p a b (List.dropWhile_eq_nil_iff.mp h)

theorem dropWhileB_append_cons (p : Char → Bool) (a b : List Char) (c : Char)
    (cs : List Char) (h : a.dropWhile p = c :: cs) :
    (a ++ b).dropWhile p = c :: (cs ++ b) := by
  induction a with
  | nil => simp at h
  | cons x xs ih =>
    simp only [List.dropWhile_cons] at h
    simp only [List.cons_append, List.dropWhile_cons]
    by_cases hx : p x = true
    · rw [hx] at h ⊢
      simp only [if_true]
      exact ih h
    · rw [eq_false_of_ne_true hx] at h ⊢
      simp only [Bool.false_eq_true, if_false] at h ⊢
      rw [List.cons.injEq] at h
      rw [h.1, h.2]

theorem dropWhileB_cons_all (p : Char → Bool) (a : List Char) (c : Char)
    (b : List Char) (ha : ∀ x ∈ a, p x = true) (hc : p c = false) :
    (a ++ c :: b).dropWhile p = c :: b := by
  rw [dropWhileB_append_all p a (c :: b) ha, List.dropWhile_cons, hc]
  simp

theorem takeWhileB_cons_all (p : Char → Bool) (a : List Char) (c : Char)
    (b : List Char) (ha : ∀ x ∈ a, p x = true) (hc : p c = false) :
    (a ++ c :: b).takeWhile p = a := by
  induction a with
  | nil =>
    simp only [List.nil_append, List.takeWhile_cons, hc]
    simp
  | cons x xs ih =>
    simp only [List.cons_append, List.takeWhile_cons]
    rw [ha x (List.mem_cons_self x xs)]
    simp only [if_true]
    rw [ih (fun y hy => ha y (List.mem_cons_of_mem x hy))]

theorem listTakeLenSucc (W : List Char) (C : Char) (B : List Char) :
    (W ++ C :: B).take (W.length + 1) = W ++ [C] := by
  induction W with
  | nil => rfl
  | cons x xs ih => simp [ih]

theorem listDropLenSucc (W : List Char) (C : Char) (B : List Char) :
    (W ++ C :: B).drop (W.length + 1) = B := by
  induction W with
  | nil => rfl
  | cons x xs ih => simp [ih]

theorem step1BoundaryExtract_append_skip (w l : List Char) (h : '\x7b' ∉ w) :
    step1BoundaryExtract (w ++ l) = step1BoundaryExtract l := by
  induction w with
  | nil => rfl
  | cons c t ih =>
    have hc : ¬(c = '\x7b') := fun e => h (e ▸ List.mem_cons_self c t)
    simp only [List.cons_append, step1BoundaryExtract, decide_eq_false hc,
      Bool.false_and, Bool.false_eq_true, if_false]
    exact ih (fun hm => h (List.mem_cons_of_mem c hm))

theorem step1BoundaryExtract_cons_close (rest : List Char) (h : '\x7d' ∈ rest) :
    step1BoundaryExtract ('\x7b' :: rest) = some ('\x7b' :: upToLastClose rest) := by
  have hc : rest.contains '\x7d' = true := List.elem_eq_true_of_mem h
  simp only [step1BoundaryExtract, hc]
  simp

theorem step1BoundaryExtract_no_brace (l : List Char) (h : '\x7b' ∉ l) :
    step1BoundaryExtract l = none := by
  induction l with
  | nil => rfl
  | cons c t ih =>
    have hc : ¬(c = '\x7b') := fun e => h (e ▸ List.mem_cons_self c t)
    simp only [step1BoundaryExtract, decide_eq_false hc, Bool.false_and,
      Bool.false_eq_true, if_false]
    exact ih (fun hm => h (List.mem_cons_of_mem c hm))

theorem upToLastClose_append (mid w2 : List Char) (h : '\x7d' ∉ w2) :
    upToLastClose ((mid ++ ['\x7d']) ++ w2) = mid ++ ['\x7d'] := by
  unfold upToLastClose
  rw [List.reverse_append, List.reverse_append]
  have h1 : ∀ c ∈ w2.reverse, (decide ¬(c = '\x7d')) = true := by
    intro c hc
    simp only [decide_eq_true_eq]
    intro e
    exact h (e ▸ (List.mem_reverse.mp hc))
  rw [show ['\x7d'].reverse = ['\x7d'] from rfl]
  rw [show (['\x7d'] : List Char) ++ mid.reverse = '\x7d' :: mid.reverse from rfl]
  rw [dropWhileB_append_all _ w2.reverse _ h1]
  rw [List.dropWhile_cons]
  simp

theorem step1_wrapped (w1 mid w2 : List Char) (h1 : '\x7b' ∉ w1) (h2 : '\x7d' ∉ w2) :
    step1 (w1 ++ ('\x7b' :: (mid ++ ['\x7d'])) ++ w2) = '\x7b' :: (mid ++ ['\x7d']) := by
  unfold step1
  rw [List.append_assoc, step1BoundaryExtract_append_skip _ _ h1]
  rw [show ('\x7b' :: (mid ++ ['\x7d'])) ++ w2 = '\x7b' :: ((mid ++ ['\x7d']) ++ w2) from rfl]
  rw [step1BoundaryExtract_cons_close _ (by simp)]
  rw [upToLastClose_append mid w2 h2]

theorem hasFence_of_take3 (x : List Char) (h : x.take 3 = ['\x60', '\x60', '\x60']) :
    hasFence x = true := by
  cases x with
  | nil => simp at h
  | cons c t =>
    simp only [List.take_succ_cons, List.cons.injEq] at h
    simp [hasFence, h.1, h.2]

theorem hasFence_tail_false (c : Char) (t : List Char)
    (h : hasFence (c :: t) = false) : hasFence t = false := by
  simp only [hasFence, Bool.or_eq_false_iff] at h
  exact h.2

theorem hasFence_drop_false (k : Nat) (l : List Char) (h : hasFence l = false) :
    hasFence (l.drop k) = false := by
  induction k generalizing l with
  | zero => exact h
  | succ n ih =>
    cases l with
    | nil => rfl
    | cons c t => exact ih t (hasFence_tail_false c t h)

theorem fenceMatchLen_none (l : List Char) (h : hasFence l = false) :
    fenceMatchLen l = none := by
  unfold fenceMatchLen
  split
  · rename_i h3
    rw [hasFence_of_take3 l h3] at h
    exact absurd h (by simp)
  · split
    · rename_i hcond
      rw [Bool.and_eq_true] at hcond
      have := hasFence_of_take3 _ (of_decide_eq_true hcond.2)
      rw [hasFence_drop_false _ l h] at this
      exact absurd this (by simp)
    · rfl

theorem fenceSubF_id (fuel : Nat) (l : List Char) (h : hasFence l = false) :
    fenceSubF fuel l = l := by
  induction fuel generalizing l with
  | zero => cases l <;> rfl
  | succ f ih =>
    cases l with
    | nil => rfl
    | cons c t =>
      simp only [fenceSubF, fenceMatchLen_none _ h]
      rw [ih t (hasFence_tail_false c t h)]

theorem fenceSub_id (l : List Char) (h : hasFence l = false) : fenceSub l = l :=
  fenceSubF_id l.length l h

theorem pyStrip_id_shape (c : Char) (m : List Char) (d : Char)
    (hc : isPyWs c = false) (hd : isPyWs d = false) :
    pyStrip (c :: (m ++ [d])) = c :: (m ++ [d]) := by
  unfold pyStrip
  rw [List.dropWhile_cons, hc]
  simp only [if_false, Bool.false_eq_true]
  rw [show (c :: (m ++ [d])).reverse = d :: (m.reverse ++ [c]) by simp]
  rw [List.dropWhile_cons, hd]
  simp

theorem closerAfterWs_eval (W : List Char) (C : Char) (B : List Char)
    (hW : ∀ x ∈ W, isPyWs x = true) (hC : isPyWs C = false) :
    closerAfterWs (W ++ C :: B) = (C = '\x7d' || C = ']') := by
  unfold closerAfterWs
  rw [dropWhileB_cons_all isPyWs W C B hW hC]

theorem closerAfterWs_append_comma (A r : List Char) :
    closerAfterWs (A ++ ',' :: r) = closerAfterWs A := by
  unfold closerAfterWs
  cases hA : A.dropWhile isPyWs with
  | nil =>
    rw [dropWhileB_append_nil isPyWs A _ hA, List.dropWhile_cons]
    rw [show isPyWs ',' = false from rfl]
    simp
  | cons a as =>
    rw [dropWhileB_append_cons isPyWs A _ a as hA]

theorem hasCommaPat_cons_false (c : Char) (t : List Char)
    (h : hasCommaPat (c :: t) = false) :
    ((c = ',' : Bool) && closerAfterWs t) = false ∧ hasCommaPat t = false := by
  simp only [hasCommaPat, Bool.or_eq_false_iff] at h
  exact h

theorem commaSubF_id (fuel : Nat) (l : List Char) (h : hasCommaPat l = false) :
    commaSubF fuel l = l := by
  induction fuel generalizing l with
  | zero => cases l <;> rfl
  | succ f ih =>
    cases l with
    | nil => rfl
    | cons c t =>
      simp only [commaSubF, (hasCommaPat_cons_false c t h).1]
      simp only [Bool.false_eq_true, if_false]
      rw [ih t (hasCommaPat_cons_false c t h).2]

theorem commaSubF_single (A W : List Char) (C : Char) (B : List Char)
    (fuel : Nat) (hfuel : A.length < fuel)
    (hA : hasCommaPat A = false) (hW : ∀ x ∈ W, isPyWs x = true)
    (hC : C = '\x7d' ∨ C = ']') (hB : hasCommaPat B = false) :
    commaSubF fuel (A ++ ',' :: (W ++ C :: B)) = A ++ W ++ C :: B := by
  have hCws : isPyWs C = false := by
    rcases hC with h | h <;> subst h <;> rfl
  induction A generalizing fuel with
  | nil =>
    cases fuel with
    | zero => omega
    | succ f =>
      simp only [List.nil_append, commaSubF]
      rw [closerAfterWs_eval W C B hW hCws]
      have hCC : (C = '\x7d' || C = ']') = true := by
        rcases hC with h | h <;> subst h <;> rfl
      rw [hCC]
      rw [if_pos (show ((decide True && true) = true) from rfl)]
      unfold wsRunLen
      rw [takeWhileB_cons_all isPyWs W C B hW hCws]
      rw [listTakeLenSucc W C B, listDropLenSucc W C B]
      rw [commaSubF_id f B hB]
      simp
  | cons a A' ih =>
    cases fuel with
    | zero => omega
    | succ f =>
      simp only [List.cons_append, commaSubF, List.append_eq]
      rw [closerAfterWs_append_comma A' (W ++ C :: B)]
      have ha := hasCommaPat_cons_false a A' hA
      rw [ha.1]
      simp only [Bool.false_eq_true, if_false]
      rw [ih f (by simp only [List.length_cons] at hfuel; omega) ha.2]

theorem commaSub_single (A W : List Char) (C : Char) (B : List Char)
    (hA : hasCommaPat A = false) (hW : ∀ x ∈ W, isPyWs x = true)
    (hC : C = '\x7d' ∨ C = ']') (hB : hasCommaPat B = false) :
    commaSub (A ++ ',' :: (W ++ C :: B)) = A ++ W ++ C :: B := by
  apply commaSubF_single A W C B _ _ hA hW hC hB
  simp only [List.length_append, List.length_cons]
  omega

theorem extract_eq_loads_candidate (raw : String) :
    extract_and_parse_json raw = json_loads_list (extract_candidate raw) := by
  unfold extract_and_parse_json extract_core json_loads_exc json_loads
  cases json_loads_list (String.mk (extract_candidate raw)).data <;> rfl

theorem commaSub_id (l : List Char) (h : hasCommaPat l = false) : commaSub l = l :=
  commaSubF_id l.length l h

theorem extract_of_wrapped (raw : String) (w1 w2 mid : List Char) (j : Json)
    (hd : raw.data = w1 ++ ('\x7b' :: (mid ++ ['\x7d'])) ++ w2)
    (h1 : '\x7b' ∉ w1) (h2 : '\x7d' ∉ w2)
    (hf : hasFence ('\x7b' :: (mid ++ ['\x7d'])) = false)
    (hcp : hasCommaPat ('\x7b' :: (mid ++ ['\x7d'])) = false)
    (hl : json_loads_list ('\x7b' :: (mid ++ ['\x7d'])) = some j) :
    extract_and_parse_json raw = some j := by
  rw [extract_eq_loads_candidate]
  unfold extract_candidate
  rw [hd, step1_wrapped w1 mid w2 h1 h2]
  rw [fenceSub_id _ hf]
  rw [pyStrip_id_shape '\x7b' mid '\x7d' rfl rfl]
  rw [commaSub_id _ hcp]
  exact hl

/-- C1 (amended): extraction agrees with strict parsing on valid JSON inputs
without wrapping, provided the brace-bounded heuristics cannot touch the
text: first, a JSON object text (`{`...`}`) surrounded by nothing but JSON
whitespace, containing no triple backtick and no comma that directly (up to
whitespace) precedes a `}` or `]`; second, an input without any `{`, without
a triple backtick, whose trimmed text has no such comma and parses.  (The
counterexample `"{}"` shows the restriction is needed: on a valid JSON
document that merely contains braces, extraction may return a different
value.) -/
theorem c1_unwrapped_json_extracts :
    (∀ (w1 w2 mid : List Char) (j : Json),
        (∀ c ∈ w1, isJsonWs c = true) → (∀ c ∈ w2, isJsonWs c = true) →
        hasFence ('\x7b' :: (mid ++ ['\x7d'])) = false →
        hasCommaPat ('\x7b' :: (mid ++ ['\x7d'])) = false →
        json_loads_list ('\x7b' :: (mid ++ ['\x7d'])) = some j →
        extract_and_parse_json (String.mk (w1 ++ ('\x7b' :: (mid ++ ['\x7d'])) ++ w2)) = some j) ∧
    (∀ (s : String) (j : Json),
        '\x7b' ∉ s.data →
        hasFence s.data = false →
        hasCommaPat (pyStrip s.data) = false →
        json_loads_list (pyStrip s.data) = some j →
        extract_and_parse_json s = some j) := by
  constructor
  · intro w1 w2 mid j hw1 hw2 hf hcp hl
    apply extract_of_wrapped _ w1 w2 mid j rfl _ _ hf hcp hl
    · intro hm
      have := hw1 '\x7b' hm
      exact absurd this (by decide)
    · intro hm
      have := hw2 '\x7d' hm
      exact absurd this (by decide)
  · intro s j hb hf hcp hl
    rw [extract_eq_loads_candidate]
    unfold extract_candidate
    have hs : step1 s.data = s.data := by
      unfold step1
      rw [step1BoundaryExtract_no_brace s.data hb]
    rw [hs, fenceSub_id _ hf, commaSub_id _ hcp]
    exact hl

/-- Witness for C1 (amended): a whitespace-wrapped object input. -/
theorem c1_unwrapped_json_extracts_witness :
    extract_and_parse_json
        (String.mk ([' '] ++ ('\x7b' :: ("\"a\":1".data ++ ['\x7d'])) ++ ['\n'])) =
      some (Json.obj [("a", Json.num 1)]) :=
  c1_unwrapped_json_extracts.1 [' '] ['\n'] "\"a\":1".data _
    (by decide) (by decide) rfl rfl rfl

/-- C2 (amended): a valid JSON object in a markdown fence (with or without a
`json` tag) with leading and trailing prose extracts to the strict parse of
the unwrapped object text, provided the prose before it contains no `{`, the
prose after it contains no `}`, and the object text contains no triple
backtick and no comma directly (up to whitespace) before a `}` or `]`.  (The
counterexample with `{draft}` in the prose shows the brace conditions are
needed.) -/
theorem c2_fenced_json_extracts (pre post tag : String) (mid : List Char) (j : Json)
    (htag : tag = "json" ∨ tag = "")
    (hpre : '\x7b' ∉ pre.data) (hpost : '\x7d' ∉ post.data)
    (hf : hasFence ('\x7b' :: (mid ++ ['\x7d'])) = false)
    (hcp : hasCommaPat ('\x7b' :: (mid ++ ['\x7d'])) = false)
    (hl : json_loads_list ('\x7b' :: (mid ++ ['\x7d'])) = some j) :
    extract_and_parse_json
        (pre ++ "```" ++ tag ++ "\n" ++ String.mk ('\x7b' :: (mid ++ ['\x7d'])) ++ "\n```" ++ post) =
      some j := by
  apply extract_of_wrapped _ ((pre ++ "```" ++ tag ++ "\n").data)
      (("\n```" ++ post).data) mid j
  · simp [String.data_append, List.append_assoc]
  · simp only [String.data_append, List.mem_append]
    rintro (((hm | hm) | hm) | hm)
    · exact hpre hm
    · exact absurd hm (by decide)
    · rcases htag with h | h <;> (subst h; exact absurd hm (by decide))
    · exact absurd hm (by decide)
  · simp only [String.data_append, List.mem_append]
    rintro (hm | hm)
    · exact absurd hm (by decide)
    · exact hpost hm
  · exact hf
  · exact hcp
  · exact hl

/-- Witness for C2 (amended) on the json-tagged fence with prose. -/
theorem c2_fenced_json_extracts_witness :
    extract_and_parse_json
        ("Here is your plan:" ++ "```" ++ "json" ++ "\n" ++
          String.mk ('\x7b' :: ("\"a\":1".data ++ ['\x7d'])) ++ "\n```" ++ "\nEnjoy!") =
      some (Json.obj [("a", Json.num 1)]) :=
  c2_fenced_json_extracts "Here is your plan:" "\nEnjoy!" "json" "\"a\":1".data _
    (Or.inl rfl) (by decide) (by decide) rfl rfl rfl

/-- C3 (amended): when the candidate text (after boundary extraction, fence
stripping and trimming) is a JSON object that is valid except for one
trailing comma before a closing `}` or `]`, and the comma-closer pattern
occurs nowhere else in the candidate (in particular not inside string
values), extraction succeeds with exactly the parse of the text with that
comma deleted.  (The counterexample `{"a": ",}",}` shows the single-occurrence
condition is needed: the repair also rewrites string contents.) -/
theorem c3_trailing_comma_repaired (raw : String) (A W B : List Char) (C : Char) (j : Json)
    (hcand : pyStrip (fenceSub (step1 raw.data)) = A ++ ',' :: (W ++ C :: B))
    (hA : hasCommaPat A = false) (hW : ∀ x ∈ W, isPyWs x = true)
    (hC : C = '\x7d' ∨ C = ']') (hB : hasCommaPat B = false)
    (hl : json_loads_list (A ++ W ++ C :: B) = some j) :
    extract_and_parse_json raw = some j := by
  rw [extract_eq_loads_candidate]
  unfold extract_candidate
  rw [hcand, commaSub_single A W C B hA hW hC hB]
  exact hl

/-- Witness for C3 (amended): `{"a":1,}` repairs to `{"a":1}`. -/
theorem c3_trailing_comma_repaired_witness :
    extract_and_parse_json "\x7b\"a\":1,\x7d" = some (Json.obj [("a", Json.num 1)]) :=
  c3_trailing_comma_repaired "\x7b\"a\":1,\x7d" "\x7b\"a\":1".data [] [] '\x7d'
    (Json.obj [("a", Json.num 1)]) rfl rfl (by simp) (Or.inl rfl) rfl rfl

theorem containsSub_of_eq (h a n b : List Char) (e : h = a ++ n ++ b) :
    ContainsSub h n := ⟨a, b, e⟩

/-- C8: for any profile field values, the prompt built with duration 14
contains `14` in both duration-labeled positions — the `{duration}-day`
phrase and the `"plan_duration"` metadata field — so the duration occurrence
is tied to its labels and distinct from any other numeric field such as age,
weight or height. -/
theorem c8_prompt_duration_labeled
    (timestamp name age weight height activity_level goal secondary_goals
      dietary_preferences dietary_requirements restrictions region
      preferred_cuisines budget meal_frequency : String) :
    ContainsSub (format_prompt timestamp "14" name age weight height
        activity_level goal secondary_goals dietary_preferences
        dietary_requirements restrictions region preferred_cuisines budget
        meal_frequency).data
      "personalized 14-day diet plan".data ∧
    ContainsSub (format_prompt timestamp "14" name age weight height
        activity_level goal secondary_goals dietary_preferences
        dietary_requirements restrictions region preferred_cuisines budget
        meal_frequency).data
      "\"plan_duration\": 14".data := by
  constructor
  · apply containsSub_of_eq _ promptSeg0a.data _
      ((promptSeg1b ++ name ++ promptSeg2 ++ age ++ promptSeg3 ++ weight ++
        promptSeg4 ++ height ++ promptSeg5 ++ activity_level ++ promptSeg6 ++
        goal ++ promptSeg7 ++ secondary_goals ++ promptSeg8 ++
        dietary_preferences ++ promptSeg9 ++ dietary_requirements ++
        promptSeg10 ++ restrictions ++ promptSeg11 ++ region ++ promptSeg12 ++
        preferred_cuisines ++ promptSeg13 ++ budget ++ promptSeg14 ++
        meal_frequency ++ promptSeg15 ++ region ++ promptSeg16 ++ timestamp ++
        promptSeg17 ++ "14" ++ promptSeg18).data)
    simp only [format_prompt, promptSeg0, promptSeg1, String.data_append,
      List.append_assoc]
    rfl
  · apply containsSub_of_eq _
      ((promptSeg0 ++ "14" ++ promptSeg1 ++ name ++ promptSeg2 ++ age ++
        promptSeg3 ++ weight ++ promptSeg4 ++ height ++ promptSeg5 ++
        activity_level ++ promptSeg6 ++ goal ++ promptSeg7 ++
        secondary_goals ++ promptSeg8 ++ dietary_preferences ++ promptSeg9 ++
        dietary_requirements ++ promptSeg10 ++ restrictions ++ promptSeg11 ++
        region ++ promptSeg12 ++ preferred_cuisines ++ promptSeg13 ++
        budget ++ promptSeg14 ++ meal_frequency ++ promptSeg15 ++ region ++
        promptSeg16 ++ timestamp ++ promptSeg17a).data)
      _ (promptSeg18.data)
    simp only [format_prompt, promptSeg17, String.data_append,
      List.append_assoc]
    rfl

theorem takeDropWhileB_stop (p : Char → Bool) (a r : List Char)
    (ha : ∀ x ∈ a, p x = true)
    (hr : r = [] ∨ ∃ c t, r = c :: t ∧ p c = false) :
    (a ++ r).takeWhile p = a ∧ (a ++ r).dropWhile p = r := by
  induction a with
  | nil =>
    rcases hr with rfl | ⟨c, t, rfl, hc⟩
    · exact ⟨rfl, rfl⟩
    · simp [List.takeWhile_cons, List.dropWhile_cons, hc]
  | cons x xs ih =>
    have hx := ha x (List.mem_cons_self x xs)
    have ih' := ih (fun y hy => ha y (List.mem_cons_of_mem x hy))
    simp only [List.cons_append, List.takeWhile_cons, List.dropWhile_cons, hx, if_true]
    exact ⟨by rw [ih'.1], ih'.2⟩

theorem numBoundary_spec (X : List Char) (h : numBoundary X = true) :
    X = [] ∨ ∃ c t, X = c :: t ∧ c.isDigit = false ∧ c ≠ '.' ∧ c ≠ 'e' ∧ c ≠ 'E' := by
  cases X with
  | nil => exact Or.inl rfl
  | cons c t =>
    simp only [numBoundary, Bool.and_eq_true, Bool.not_eq_true'] at h
    refine Or.inr ⟨c, t, rfl, h.1.1.1, ?_, ?_, ?_⟩
    · simpa using h.1.1.2
    · simpa using h.1.2
    · simpa using h.2

theorem numBoundary_notDigit (X : List Char) (h : numBoundary X = true) :
    X = [] ∨ ∃ c t, X = c :: t ∧ c.isDigit = false := by
  rcases numBoundary_spec X h with rfl | ⟨c, t, rfl, h1, _, _, _⟩
  · exact Or.inl rfl
  · exact Or.inr ⟨c, t, rfl, h1⟩

theorem parseIntDigits_at (ids r : List Char) (h : IntDigitsOk ids)
    (hr : r = [] ∨ ∃ c t, r = c :: t ∧ c.isDigit = false) :
    parseIntDigits (ids ++ r) = some (ids, r) := by
  rcases h with rfl | ⟨c, t, rfl, hd, h0, ht⟩
  · simp [parseIntDigits]
  · have stop := takeDropWhileB_stop Char.isDigit t r ht hr
    simp only [List.cons_append, parseIntDigits, if_neg h0, hd, if_true, stop.1, stop.2]

theorem parseFrac_at (fr X : List Char) (h : FracOk fr)
    (hX : X = [] ∨ ∃ c t, X = c :: t ∧ c ≠ '.' ∧ c.isDigit = false) :
    parseFrac (fr ++ X) = (fr, X) := by
  rcases h with rfl | ⟨ds, rfl, hne, hds⟩
  · rcases hX with rfl | ⟨c, t, rfl, hdot, _⟩
    · rfl
    · simp [parseFrac, hdot]
  · have stop := takeDropWhileB_stop Char.isDigit ds X hds
      (by rcases hX with rfl | ⟨c, t, rfl, _, hc⟩
          · exact Or.inl rfl
          · exact Or.inr ⟨c, t, rfl, hc⟩)
    simp only [List.cons_append, parseFrac, if_pos rfl, stop.1, stop.2]
    cases ds with
    | nil => exact absurd rfl hne
    | cons d ds' => simp

theorem isDigit_ne_plus {c : Char} (h : c.isDigit = true) : ¬(c = '+' ∨ c = '-') := by
  rintro (rfl | rfl) <;> simp [Char.isDigit] at h

theorem parseExp_at (ex X : List Char) (h : ExpOk ex) (hX : numBoundary X = true) :
    parseExp (ex ++ X) = (ex, X) := by
  rcases h with rfl | ⟨e, s, ds, he, hs, rfl, hne, hds⟩
  · rcases numBoundary_spec X hX with rfl | ⟨c, t, rfl, hcd, hcdot, hce, hcE⟩
    · rfl
    · cases t with
      | nil => rfl
      | cons c2 t2 =>
        have : (decide (c = 'e') || decide (c = 'E')) = false := by
          simp [hce, hcE]
        simp only [List.nil_append, parseExp, this]
        simp
  · have hXd : X = [] ∨ ∃ c t, X = c :: t ∧ c.isDigit = false := by
      rcases numBoundary_spec X hX with rfl | ⟨c, t, rfl, hcd, _, _, _⟩
      · exact Or.inl rfl
      · exact Or.inr ⟨c, t, rfl, hcd⟩
    have hee : (decide (e = 'e') || decide (e = 'E')) = true := by
      rcases he with rfl | rfl <;> simp
    have stop := takeDropWhileB_stop Char.isDigit ds X hds hXd
    rcases hs with rfl | rfl | rfl
    · -- no sign: ex = e :: ds
      cases ds with
      | nil => exact absurd rfl hne
      | cons d ds' =>
        have hd : d.isDigit = true := hds d (List.mem_cons_self d ds')
        have hdpm : (decide (d = '+') || decide (d = '-')) = false := by
          have := isDigit_ne_plus hd
          simp only [Bool.or_eq_false_iff, decide_eq_false_iff_not]
          exact ⟨fun e => this (Or.inl e), fun e => this (Or.inr e)⟩
        simp only [List.nil_append, List.cons_append, parseExp, hee, if_true, hdpm]
        simp only [Bool.false_eq_true, if_false]
        rw [show d :: (ds' ++ X) = (d :: ds') ++ X from rfl]
        simp only [stop.1, stop.2]
        simp
    · -- sign +: ex = e :: '+' :: ds
      cases ds with
      | nil => exact absurd rfl hne
      | cons d ds' =>
        have hd : d.isDigit = true := hds d (List.mem_cons_self d ds')
        simp only [List.cons_append] at stop
        simp only [List.cons_append, List.singleton_append, parseExp, hee, if_true]
        simp [hd, stop.1, stop.2]
    · -- sign -: ex = e :: '-' :: ds
      cases ds with
      | nil => exact absurd rfl hne
      | cons d ds' =>
        have hd : d.isDigit = true := hds d (List.mem_cons_self d ds')
        simp only [List.cons_append] at stop
        simp only [List.cons_append, List.singleton_append, parseExp, hee, if_true]
        simp [hd, stop.1, stop.2]

theorem parseFrac_nil_at (X : List Char) (hX : numBoundary X = true) :
    parseFrac X = ([], X) := by
  have := parseFrac_at [] X (Or.inl rfl) (by
    rcases numBoundary_spec X hX with rfl | ⟨c, t, rfl, h1, h2, _, _⟩
    · exact Or.inl rfl
    · exact Or.inr ⟨c, t, rfl, h2, h1⟩)
  simpa using this

theorem parseExp_nil_at (X : List Char) (hX : numBoundary X = true) :
    parseExp X = ([], X) := by
  have := parseExp_at [] X (Or.inl rfl) hX
  simpa using this

theorem parseNumberCore_int_at (sgn ids rest : List Char) (hids : IntDigitsOk ids)
    (hrest : numBoundary rest = true) :
    parseNumberCore sgn (ids ++ rest) =
      some (.num ((if sgn.isEmpty then 1 else -1) * (digitsToNat ids : Int)), rest) := by
  have h1 : parseIntDigits (ids ++ rest) = some (ids, rest) :=
    parseIntDigits_at ids rest hids (numBoundary_notDigit rest hrest)
  unfold parseNumberCore
  rw [h1]
  simp [parseFrac_nil_at rest hrest, parseExp_nil_at rest hrest]

theorem parseNumberCore_flt_at (sgn ids fr ex rest : List Char) (hids : IntDigitsOk ids)
    (hfr : FracOk fr) (hex : ExpOk ex) (hne : ¬(fr = [] ∧ ex = []))
    (hrest : numBoundary rest = true) :
    parseNumberCore sgn (ids ++ (fr ++ (ex ++ rest))) =
      some (.numF (String.mk (sgn ++ ids ++ fr ++ ex)), rest) := by
  have hnd : fr ++ (ex ++ rest) = [] ∨
      ∃ c t, fr ++ (ex ++ rest) = c :: t ∧ c.isDigit = false := by
    rcases hfr with rfl | ⟨ds, rfl, _, _⟩
    · rcases hex with rfl | ⟨e, s, ds, he, _, rfl, _, _⟩
      · exact absurd ⟨rfl, rfl⟩ hne
      · refine Or.inr ⟨e, s ++ ds ++ rest, by simp, ?_⟩
        rcases he with rfl | rfl <;> rfl
    · exact Or.inr ⟨'.', ds ++ (ex ++ rest), by simp, rfl⟩
  have h1 := parseIntDigits_at ids _ hids hnd
  have h2 : parseFrac (fr ++ (ex ++ rest)) = (fr, ex ++ rest) := by
    apply parseFrac_at fr _ hfr
    rcases hex with rfl | ⟨e, s, ds, he, _, rfl, _, _⟩
    · simp only [List.nil_append]
      rcases numBoundary_spec rest hrest with rfl | ⟨c, t, rfl, h1', h2', _, _⟩
      · exact Or.inl rfl
      · exact Or.inr ⟨c, t, rfl, h2', h1'⟩
    · refine Or.inr ⟨e, s ++ ds ++ rest, by simp, ?_, ?_⟩
      · rcases he with rfl | rfl <;> decide
      · rcases he with rfl | rfl <;> rfl
  have h3 : parseExp (ex ++ rest) = (ex, rest) := parseExp_at ex rest hex hrest
  unfold parseNumberCore
  rw [h1]
  simp only [h2, h3]
  have hemp : (fr.isEmpty && ex.isEmpty) = false := by
    rcases hfr with rfl | ⟨ds, rfl, _, _⟩
    · rcases hex with rfl | ⟨e, s, ds, _, _, rfl, _, _⟩
      · exact absurd ⟨rfl, rfl⟩ hne
      · simp
    · simp
  rw [hemp]
  simp

theorem digitVal_dc (d : Nat) (h : d < 10) : digitVal (Char.ofNat (48 + d)) = d := by
  interval_cases d <;> rfl

theorem isDigit_dc (d : Nat) (h : d < 10) : (Char.ofNat (48 + d)).isDigit = true := by
  interval_cases d <;> rfl

theorem dc_ne_zero (d : Nat) (h : d < 10) (h0 : d ≠ 0) : Char.ofNat (48 + d) ≠ '0' := by
  interval_cases d <;> simp_all

theorem natDigitsBE_ok (m : Nat) : IntDigitsOk (natDigitsBE m) := by
  by_cases hm : m = 0
  · subst hm
    exact Or.inl rfl
  · unfold natDigitsBE
    rw [if_neg hm]
    have hL : Nat.digits 10 m ≠ [] := Nat.digits_ne_nil_iff_ne_zero.mpr hm
    have hlt : ∀ d ∈ Nat.digits 10 m, d < 10 :=
      fun d hd => Nat.digits_lt_base (by norm_num) hd
    have hrev : ((Nat.digits 10 m).map (fun d => Char.ofNat (48 + d))).reverse ≠ [] := by
      simp [hL]
    obtain ⟨c, t, hct⟩ := List.exists_cons_of_ne_nil hrev
    refine Or.inr ⟨c, t, hct, ?_, ?_, ?_⟩
    · have hc : c ∈ ((Nat.digits 10 m).map (fun d => Char.ofNat (48 + d))).reverse := by
        rw [hct]
        exact List.mem_cons_self c t
      rw [List.mem_reverse, List.mem_map] at hc
      obtain ⟨d, hd, rfl⟩ := hc
      exact isDigit_dc d (hlt d hd)
    · have hhead : ((Nat.digits 10 m).map (fun d => Char.ofNat (48 + d))).reverse.head? = some c := by
        rw [hct]
        rfl
      rw [List.head?_reverse] at hhead
      rw [List.getLast?_map] at hhead
      rw [List.getLast?_eq_getLast _ hL] at hhead
      simp only [Option.map_some', Option.some.injEq] at hhead
      have hlast := Nat.getLast_digit_ne_zero 10 hm
      rw [← hhead]
      exact dc_ne_zero _ (hlt _ (List.getLast_mem hL)) hlast
    · intro x hx
      have hc : x ∈ ((Nat.digits 10 m).map (fun d => Char.ofNat (48 + d))).reverse := by
        rw [hct]
        exact List.mem_cons_of_mem c hx
      rw [List.mem_reverse, List.mem_map] at hc
      obtain ⟨d, hd, rfl⟩ := hc
      exact isDigit_dc d (hlt d hd)

theorem foldr_digitVal_dc (L : List Nat) (hL : ∀ d ∈ L, d < 10) :
    List.foldr (fun c a => a * 10 + digitVal c) 0
        (L.map (fun d => Char.ofNat (48 + d))) = Nat.ofDigits 10 L := by
  induction L with
  | nil => rfl
  | cons d L' ih =>
    have hd := hL d (List.mem_cons_self d L')
    have ih' := ih (fun x hx => hL x (List.mem_cons_of_mem d hx))
    simp only [List.map_cons, List.foldr_cons, ih', digitVal_dc d hd, Nat.ofDigits_cons]
    ring

theorem digitsToNat_natDigitsBE (m : Nat) : digitsToNat (natDigitsBE m) = m := by
  by_cases hm : m = 0
  · subst hm
    rfl
  · unfold natDigitsBE digitsToNat
    rw [if_neg hm, List.foldl_reverse]
    have hlt : ∀ d ∈ Nat.digits 10 m, d < 10 :=
      fun d hd => Nat.digits_lt_base (by norm_num) hd
    rw [foldr_digitVal_dc _ hlt]
    exact Nat.ofDigits_digits 10 m

theorem isDigit_ne_minus {c : Char} (h : c.isDigit = true) : ¬(c = '-') :=
  fun e => isDigit_ne_plus h (Or.inr e)

theorem intLit_parse (n : Int) (rest : List Char) (hrest : numBoundary rest = true) :
    parseNumber (intLit n ++ rest) = some (.num n, rest) := by
  unfold intLit
  by_cases hn : n < 0
  · rw [if_pos hn]
    rw [show (['-'] ++ natDigitsBE n.natAbs) ++ rest = '-' :: (natDigitsBE n.natAbs ++ rest) by simp]
    simp only [parseNumber, if_pos rfl]
    rw [parseNumberCore_int_at ['-'] _ rest (natDigitsBE_ok n.natAbs) hrest]
    have hv : ((if (['-'] : List Char).isEmpty then (1 : Int) else -1) *
        (digitsToNat (natDigitsBE n.natAbs) : Int)) = n := by
      rw [digitsToNat_natDigitsBE]
      simp only [List.isEmpty_cons, Bool.false_eq_true, if_false]
      omega
    rw [hv]
    simp
  · rw [if_neg hn]
    simp only [List.nil_append]
    have hok := natDigitsBE_ok n.natAbs
    have hd : ∃ c t, natDigitsBE n.natAbs = c :: t ∧ c.isDigit = true := by
      rcases hok with h | ⟨c, t, hct, hcd, _, _⟩
      · exact ⟨'0', [], h, rfl⟩
      · exact ⟨c, t, hct, hcd⟩
    obtain ⟨c, t, hct, hcd⟩ := hd
    rw [hct]
    simp only [List.cons_append, parseNumber]
    rw [if_neg (isDigit_ne_minus hcd)]
    rw [show c :: (t ++ rest) = (c :: t) ++ rest from rfl, ← hct]
    rw [parseNumberCore_int_at [] _ rest hok hrest]
    have hv : ((if ([] : List Char).isEmpty then (1 : Int) else -1) *
        (digitsToNat (natDigitsBE n.natAbs) : Int)) = n := by
      rw [digitsToNat_natDigitsBE]
      simp only [List.isEmpty_nil, if_true]
      omega
    rw [hv]

theorem parseIntDigits_inv (l ids r : List Char)
    (h : parseIntDigits l = some (ids, r)) : IntDigitsOk ids ∧ l = ids ++ r := by
  cases l with
  | nil => simp [parseIntDigits] at h
  | cons c t =>
    simp only [parseIntDigits] at h
    by_cases h0 : c = '0'
    · rw [if_pos h0] at h
      simp only [Option.some.injEq, Prod.mk.injEq] at h
      subst h0
      exact ⟨Or.inl h.1.symm, by rw [← h.1, ← h.2]; rfl⟩
    · rw [if_neg h0] at h
      by_cases hd : c.isDigit = true
      · rw [hd] at h
        simp only [if_true, Option.some.injEq, Prod.mk.injEq] at h
        refine ⟨Or.inr ⟨c, t.takeWhile Char.isDigit, h.1.symm, hd, h0, ?_⟩, ?_⟩
        · intro x hx
          exact List.mem_takeWhile_imp hx
        · rw [← h.1, ← h.2]
          simp [List.takeWhile_append_dropWhile]
      · rw [eq_false_of_ne_true hd] at h
        simp at h

theorem parseFrac_inv (l : List Char) :
    FracOk (parseFrac l).1 ∧ l = (parseFrac l).1 ++ (parseFrac l).2 := by
  cases l with
  | nil => exact ⟨Or.inl rfl, rfl⟩
  | cons c t =>
    simp only [parseFrac]
    by_cases hdot : c = '.'
    · rw [if_pos hdot]
      by_cases hemp : (t.takeWhile Char.isDigit).isEmpty = true
      · rw [if_pos hemp]
        exact ⟨Or.inl rfl, rfl⟩
      · rw [if_neg hemp]
        subst hdot
        refine ⟨Or.inr ⟨t.takeWhile Char.isDigit, rfl, ?_, ?_⟩, ?_⟩
        · intro he
          rw [he] at hemp
          exact hemp rfl
        · intro x hx
          exact List.mem_takeWhile_imp hx
        · simp [List.takeWhile_append_dropWhile]
    · rw [if_neg hdot]
      exact ⟨Or.inl rfl, rfl⟩

theorem parseExp_inv (l : List Char) :
    ExpOk (parseExp l).1 ∧ l = (parseExp l).1 ++ (parseExp l).2 := by
  match l with
  | [] => exact ⟨Or.inl rfl, rfl⟩
  | [c] => exact ⟨Or.inl rfl, rfl⟩
  | e :: s :: r2 =>
    simp only [parseExp]
    by_cases hee : (decide (e = 'e') || decide (e = 'E')) = true
    · rw [if_pos hee]
      have he : e = 'e' ∨ e = 'E' := by
        rcases Bool.or_eq_true_iff.mp hee with h | h
        · exact Or.inl (of_decide_eq_true h)
        · exact Or.inr (of_decide_eq_true h)
      by_cases hsgn : (decide (s = '+') || decide (s = '-')) = true
      · rw [if_pos hsgn]
        have hs : s = '+' ∨ s = '-' := by
          rcases Bool.or_eq_true_iff.mp hsgn with h | h
          · exact Or.inl (of_decide_eq_true h)
          · exact Or.inr (of_decide_eq_true h)
        by_cases hemp : (r2.takeWhile Char.isDigit).isEmpty = true
        · rw [if_pos hemp]
          exact ⟨Or.inl rfl, rfl⟩
        · rw [if_neg hemp]
          constructor
          · refine Or.inr ⟨e, [s], r2.takeWhile Char.isDigit, he, ?_, by simp, ?_, ?_⟩
            · rcases hs with rfl | rfl
              · exact Or.inr (Or.inl rfl)
              · exact Or.inr (Or.inr rfl)
            · intro hh
              rw [hh] at hemp
              exact hemp rfl
            · intro x hx
              exact List.mem_takeWhile_imp hx
          · simp [List.takeWhile_append_dropWhile]
      · rw [if_neg hsgn]
        by_cases hemp : ((s :: r2).takeWhile Char.isDigit).isEmpty = true
        · rw [if_pos hemp]
          exact ⟨Or.inl rfl, rfl⟩
        · rw [if_neg hemp]
          constructor
          · refine Or.inr ⟨e, [], (s :: r2).takeWhile Char.isDigit, he, Or.inl rfl, by simp, ?_, ?_⟩
            · intro hh
              rw [hh] at hemp
              exact hemp rfl
            · intro x hx
              exact List.mem_takeWhile_imp hx
          · simp [List.takeWhile_append_dropWhile]
    · rw [if_neg hee]
      exact ⟨Or.inl rfl, rfl⟩

theorem parseNumberCore_inv (sgn l1 : List Char) (j : Json) (r : List Char)
    (h : parseNumberCore sgn l1 = some (j, r)) :
    (∃ n, j = .num n) ∨
    (∃ ids fr ex, j = .numF (String.mk (sgn ++ ids ++ fr ++ ex)) ∧
      IntDigitsOk ids ∧ FracOk fr ∧ ExpOk ex ∧ ¬(fr = [] ∧ ex = [])) := by
  unfold parseNumberCore at h
  cases hpid : parseIntDigits l1 with
  | none => rw [hpid] at h; exact absurd h (by simp)
  | some p =>
    obtain ⟨ids, l2⟩ := p
    rw [hpid] at h
    simp only at h
    by_cases hemp : ((parseFrac l2).1.isEmpty && (parseExp (parseFrac l2).2).1.isEmpty) = true
    · rw [if_pos hemp] at h
      simp only [Option.some.injEq, Prod.mk.injEq] at h
      exact Or.inl ⟨_, h.1.symm⟩
    · rw [if_neg hemp] at h
      simp only [Option.some.injEq, Prod.mk.injEq] at h
      refine Or.inr ⟨ids, (parseFrac l2).1, (parseExp (parseFrac l2).2).1, h.1.symm,
        (parseIntDigits_inv l1 ids l2 hpid).1, (parseFrac_inv l2).1,
        (parseExp_inv (parseFrac l2).2).1, ?_⟩
      rintro ⟨hf, he⟩
      rw [hf, he] at hemp
      exact hemp rfl

theorem intDigitsOk_head_digit (ids : List Char) (h : IntDigitsOk ids) :
    ∃ c t, ids = c :: t ∧ c.isDigit = true := by
  rcases h with rfl | ⟨c, t, rfl, hd, _, _⟩
  · exact ⟨'0', [], rfl, rfl⟩
  · exact ⟨c, t, rfl, hd⟩

theorem parseNumber_flt_at (sgn ids fr ex rest : List Char)
    (hsgn : sgn = [] ∨ sgn = ['-']) (hids : IntDigitsOk ids) (hfr : FracOk fr)
    (hex : ExpOk ex) (hne : ¬(fr = [] ∧ ex = [])) (hrest : numBoundary rest = true) :
    parseNumber ((sgn ++ ids ++ fr ++ ex) ++ rest) =
      some (.numF (String.mk (sgn ++ ids ++ fr ++ ex)), rest) := by
  obtain ⟨c, t, hct, hcd⟩ := intDigitsOk_head_digit ids hids
  rcases hsgn with rfl | rfl
  · simp only [List.nil_append]
    rw [hct]
    simp only [List.cons_append, List.append_assoc, parseNumber]
    rw [if_neg (isDigit_ne_minus hcd)]
    rw [show c :: (t ++ (fr ++ (ex ++ rest))) = (c :: t) ++ (fr ++ (ex ++ rest)) from rfl, ← hct]
    have := parseNumberCore_flt_at [] ids fr ex rest hids hfr hex hne hrest
    simp only [List.nil_append] at this
    rw [this]
    simp [hct]
  · rw [show (['-'] ++ ids ++ fr ++ ex) ++ rest = '-' :: (ids ++ (fr ++ (ex ++ rest))) by simp]
    simp only [parseNumber, if_pos rfl]
    rw [parseNumberCore_flt_at ['-'] ids fr ex rest hids hfr hex hne hrest]
    simp

theorem parseNumber_inv (l : List Char) (j : Json) (r : List Char)
    (h : parseNumber l = some (j, r)) :
    (∃ n, j = .num n) ∨
    (∃ lit : String, j = .numF lit ∧
      ∀ rest, numBoundary rest = true →
        parseNumber (lit.data ++ rest) = some (.numF lit, rest)) := by
  cases l with
  | nil => simp [parseNumber] at h
  | cons c t =>
    simp only [parseNumber] at h
    have main : ∀ sgn l1, sgn = [] ∨ sgn = ['-'] → parseNumberCore sgn l1 = some (j, r) →
        (∃ n, j = .num n) ∨
        (∃ lit : String, j = .numF lit ∧
          ∀ rest, numBoundary rest = true →
            parseNumber (lit.data ++ rest) = some (.numF lit, rest)) := by
      intro sgn l1 hsgn hcore
      rcases parseNumberCore_inv sgn l1 j r hcore with h1 | ⟨ids, fr, ex, rfl, hids, hfr, hex, hne⟩
      · exact Or.inl h1
      · refine Or.inr ⟨String.mk (sgn ++ ids ++ fr ++ ex), rfl, ?_⟩
        intro rest hrest
        exact parseNumber_flt_at sgn ids fr ex rest hsgn hids hfr hex hne hrest
    by_cases hminus : c = '-'
    · rw [if_pos hminus] at h
      exact main ['-'] t (Or.inr rfl) h
    · rw [if_neg hminus] at h
      exact main [] (c :: t) (Or.inl rfl) h

theorem parseNumber_wf (l : List Char) (j : Json) (r : List Char)
    (h : parseNumber l = some (j, r)) : JWF j := by
  rcases parseNumber_inv l j r h with ⟨n, rfl⟩ | ⟨lit, rfl, hre⟩
  · exact JWF.num n
  · refine JWF.numF lit ?_
    have := hre [] rfl
    simpa using this

theorem findValue_some_mem (k : String) (kvs : List (String × Json)) (w : Json)
    (h : findValue k kvs = some w) : (k, w) ∈ kvs := by
  induction kvs with
  | nil => simp [findValue] at h
  | cons kv kvs ih =>
    obtain ⟨k', v'⟩ := kv
    simp only [findValue] at h
    by_cases hk : k' = k
    · rw [if_pos hk] at h
      simp only [Option.some.injEq] at h
      subst hk
      subst h
      exact List.mem_cons_self _ _
    · rw [if_neg hk] at h
      exact List.mem_cons_of_mem _ (ih h)

theorem findValue_none_keys (k : String) (kvs : List (String × Json))
    (h : findValue k kvs = none) : k ∉ kvs.map Prod.fst := by
  induction kvs with
  | nil => simp
  | cons kv kvs ih =>
    obtain ⟨k', v'⟩ := kv
    simp only [findValue] at h
    by_cases hk : k' = k
    · rw [if_pos hk] at h
      exact absurd h (by simp)
    · rw [if_neg hk] at h
      simp only [List.map_cons, List.mem_cons]
      rintro (rfl | hm)
      · exact hk rfl
      · exact ih h hm

theorem findValue_eq_none (k : String) (kvs : List (String × Json))
    (h : k ∉ kvs.map Prod.fst) : findValue k kvs = none := by
  induction kvs with
  | nil => rfl
  | cons kv kvs ih =>
    obtain ⟨k', v'⟩ := kv
    simp only [List.map_cons, List.mem_cons] at h
    push_neg at h
    simp only [findValue]
    rw [if_neg (fun e => h.1 e.symm)]
    exact ih h.2

theorem mem_removeKey (k : String) (kvs : List (String × Json)) (kv : String × Json)
    (h : kv ∈ removeKey k kvs) : kv ∈ kvs := by
  induction kvs with
  | nil => simp [removeKey] at h
  | cons kv' kvs ih =>
    simp only [removeKey] at h
    by_cases hk : kv'.1 = k
    · rw [if_pos hk] at h
      exact List.mem_cons_of_mem _ h
    · rw [if_neg hk] at h
      rcases List.mem_cons.mp h with rfl | hm
      · exact List.mem_cons_self _ _
      · exact List.mem_cons_of_mem _ (ih hm)

theorem keys_removeKey_subset (k a : String) (kvs : List (String × Json))
    (h : a ∈ (removeKey k kvs).map Prod.fst) : a ∈ kvs.map Prod.fst := by
  rw [List.mem_map] at h
  obtain ⟨kv, hkv, rfl⟩ := h
  exact List.mem_map_of_mem Prod.fst (mem_removeKey k kvs kv hkv)

theorem not_mem_keys_removeKey (k : String) (kvs : List (String × Json))
    (hnd : (kvs.map Prod.fst).Nodup) : k ∉ (removeKey k kvs).map Prod.fst := by
  induction kvs with
  | nil => simp [removeKey]
  | cons kv kvs ih =>
    obtain ⟨k', v'⟩ := kv
    simp only [List.map_cons, List.nodup_cons] at hnd
    simp only [removeKey]
    by_cases hk : k' = k
    · simp only [hk, if_pos rfl]
      rw [← hk]
      exact hnd.1
    · rw [if_neg hk]
      simp only [List.map_cons, List.mem_cons]
      rintro (rfl | hm)
      · exact hk rfl
      · exact ih hnd.2 hm

theorem removeKey_keys_nodup (k : String) (kvs : List (String × Json))
    (hnd : (kvs.map Prod.fst).Nodup) : ((removeKey k kvs).map Prod.fst).Nodup := by
  induction kvs with
  | nil => simp [removeKey]
  | cons kv kvs ih =>
    obtain ⟨k', v'⟩ := kv
    simp only [List.map_cons, List.nodup_cons] at hnd
    simp only [removeKey]
    by_cases hk : k' = k
    · rw [if_pos hk]
      exact hnd.2
    · rw [if_neg hk]
      simp only [List.map_cons, List.nodup_cons]
      exact ⟨fun hm => hnd.1 (keys_removeKey_subset k k' kvs hm), ih hnd.2⟩

theorem combineKV_wf (k : String) (v : Json) (kvs : List (String × Json))
    (hall : ∀ kv ∈ kvs, JWF kv.2) (hv : JWF v) :
    ∀ kv ∈ combineKV k v kvs, JWF kv.2 := by
  unfold combineKV
  cases hf : findValue k kvs with
  | some w =>
    intro kv hkv
    rcases List.mem_cons.mp hkv with rfl | hm
    · exact hall _ (findValue_some_mem _ _ _ hf)
    · exact hall _ (mem_removeKey _ _ _ hm)
  | none =>
    intro kv hkv
    rcases List.mem_cons.mp hkv with rfl | hm
    · exact hv
    · exact hall _ hm

theorem combineKV_nodup (k : String) (v : Json) (kvs : List (String × Json))
    (hnd : (kvs.map Prod.fst).Nodup) :
    ((combineKV k v kvs).map Prod.fst).Nodup := by
  unfold combineKV
  cases hf : findValue k kvs with
  | some w =>
    simp only [List.map_cons, List.nodup_cons]
    exact ⟨not_mem_keys_removeKey k kvs hnd, removeKey_keys_nodup k kvs hnd⟩
  | none =>
    simp only [List.map_cons, List.nodup_cons]
    exact ⟨findValue_none_keys k kvs hf, hnd⟩

theorem combineKV_of_not_mem (k : String) (v : Json) (kvs : List (String × Json))
    (h : k ∉ kvs.map Prod.fst) : combineKV k v kvs = (k, v) :: kvs := by
  unfold combineKV
  rw [findValue_eq_none k kvs h]

theorem parse_wf_all : ∀ f : Nat,
    (∀ l j r, parseValue f l = some (j, r) → JWF j) ∧
    (∀ l kvs r, parseMembers f l = some (kvs, r) →
      (∀ kv ∈ kvs, JWF kv.2) ∧ (kvs.map Prod.fst).Nodup) ∧
    (∀ l es r, parseElems f l = some (es, r) → ∀ e ∈ es, JWF e) := by
  intro f
  induction f with
  | zero =>
    refine ⟨?_, ?_, ?_⟩
    · intro l j r h
      simp [parseValue] at h
    · intro l kvs r h
      simp [parseMembers] at h
    · intro l es r h
      simp [parseElems] at h
  | succ f ih =>
    obtain ⟨ihv, ihm, ihe⟩ := ih
    refine ⟨?_, ?_, ?_⟩
    · intro l j r h
      cases l with
      | nil => simp [parseValue] at h
      | cons c t =>
        simp only [parseValue] at h
        by_cases h1 : c = '\x7b'
        · rw [if_pos h1] at h
          split at h
          · cases hm : parseMembers f ([] : List Char) with
            | none => rw [hm] at h; simp at h
            | some p =>
              obtain ⟨kvs0, rest0⟩ := p
              rw [hm] at h
              simp only [Option.map_some', Option.some.injEq, Prod.mk.injEq] at h
              rw [← h.1]
              have := ihm _ _ _ hm
              exact JWF.obj kvs0 this.1 this.2
          · rename_i c2 r2 heq
            by_cases h2b : c2 = '\x7d'
            · rw [if_pos h2b] at h
              simp only [Option.some.injEq, Prod.mk.injEq] at h
              rw [← h.1]
              exact JWF.obj [] (by simp) (by simp)
            · rw [if_neg h2b] at h
              cases hm : parseMembers f (c2 :: r2) with
              | none => rw [hm] at h; simp at h
              | some p =>
                obtain ⟨kvs0, rest0⟩ := p
                rw [hm] at h
                simp only [Option.map_some', Option.some.injEq, Prod.mk.injEq] at h
                rw [← h.1]
                have := ihm _ _ _ hm
                exact JWF.obj kvs0 this.1 this.2
        · rw [if_neg h1] at h
          by_cases h2 : c = '['
          · rw [if_pos h2] at h
            split at h
            · cases hm : parseElems f ([] : List Char) with
              | none => rw [hm] at h; simp at h
              | some p =>
                obtain ⟨es0, rest0⟩ := p
                rw [hm] at h
                simp only [Option.map_some', Option.some.injEq, Prod.mk.injEq] at h
                rw [← h.1]
                exact JWF.arr es0 (ihe _ _ _ hm)
            · rename_i c2 r2 heq
              by_cases h2b : c2 = ']'
              · rw [if_pos h2b] at h
                simp only [Option.some.injEq, Prod.mk.injEq] at h
                rw [← h.1]
                exact JWF.arr [] (by simp)
              · rw [if_neg h2b] at h
                cases hm : parseElems f (c2 :: r2) with
                | none => rw [hm] at h; simp at h
                | some p =>
                  obtain ⟨es0, rest0⟩ := p
                  rw [hm] at h
                  simp only [Option.map_some', Option.some.injEq, Prod.mk.injEq] at h
                  rw [← h.1]
                  exact JWF.arr es0 (ihe _ _ _ hm)
          · rw [if_neg h2] at h
            by_cases h3 : c = '"'
            · rw [if_pos h3] at h
              split at h
              · simp only [Option.some.injEq, Prod.mk.injEq] at h
                rw [← h.1]
                exact JWF.str _
              · simp at h
            · rw [if_neg h3] at h
              by_cases h4 : c = 't'
              · rw [if_pos h4] at h
                split at h
                · simp only [Option.some.injEq, Prod.mk.injEq] at h
                  rw [← h.1]
                  exact JWF.bool true
                · simp at h
              · rw [if_neg h4] at h
                by_cases h5 : c = 'f'
                · rw [if_pos h5] at h
                  split at h
                  · simp only [Option.some.injEq, Prod.mk.injEq] at h
                    rw [← h.1]
                    exact JWF.bool false
                  · simp at h
                · rw [if_neg h5] at h
                  by_cases h6 : c = 'n'
                  · rw [if_pos h6] at h
                    split at h
                    · simp only [Option.some.injEq, Prod.mk.injEq] at h
                      rw [← h.1]
                      exact JWF.null
                    · simp at h
                  · rw [if_neg h6] at h
                    split at h
                    · exact parseNumber_wf _ _ _ h
                    · simp at h
    · intro l kvs r h
      cases l with
      | nil => simp [parseMembers] at h
      | cons c t =>
        simp only [parseMembers] at h
        by_cases h1 : c = '"'
        · rw [if_pos h1] at h
          cases hsb : parseStringBody t with
          | none => rw [hsb] at h; simp at h
          | some p =>
            obtain ⟨kcs, r1⟩ := p
            rw [hsb] at h
            simp only at h
            split at h
            · cases hv : parseValue f (skipWs _) with
              | none => rw [hv] at h; simp at h
              | some pv =>
                obtain ⟨v, r4⟩ := pv
                rw [hv] at h
                simp only at h
                have hvwf := ihv _ _ _ hv
                split at h
                · cases hm : parseMembers f (skipWs _) with
                  | none => rw [hm] at h; simp at h
                  | some pm =>
                    obtain ⟨kvs', r7⟩ := pm
                    rw [hm] at h
                    simp only [Option.some.injEq, Prod.mk.injEq] at h
                    have ihm' := ihm _ _ _ hm
                    rw [← h.1]
                    exact ⟨combineKV_wf _ _ _ ihm'.1 hvwf, combineKV_nodup _ _ _ ihm'.2⟩
                · simp only [Option.some.injEq, Prod.mk.injEq] at h
                  rw [← h.1]
                  refine ⟨?_, by simp⟩
                  intro kv hkv
                  rcases List.mem_cons.mp hkv with rfl | hm
                  · exact hvwf
                  · simp at hm
                · simp at h
            · simp at h
        · rw [if_neg h1] at h
          simp at h
    · intro l es r h
      cases hv : parseValue f l with
      | none =>
        simp only [parseElems] at h
        rw [hv] at h
        simp at h
      | some pv =>
        obtain ⟨v, r1⟩ := pv
        simp only [parseElems] at h
        rw [hv] at h
        simp only at h
        have hvwf := ihv _ _ _ hv
        split at h
        · cases hm : parseElems f (skipWs _) with
          | none => rw [hm] at h; simp at h
          | some pe =>
            obtain ⟨vs, r3⟩ := pe
            rw [hm] at h
            simp only [Option.some.injEq, Prod.mk.injEq] at h
            rw [← h.1]
            intro e he
            rcases List.mem_cons.mp he with rfl | hm'
            · exact hvwf
            · exact ihe _ _ _ hm _ hm'
        · simp only [Option.some.injEq, Prod.mk.injEq] at h
          rw [← h.1]
          intro e he
          rcases List.mem_cons.mp he with rfl | hm'
          · exact hvwf
          · simp at hm'
        · simp at h

theorem hexVal_hexDigitCh (d : Nat) (h : d < 16) : hexVal? (hexDigitCh d) = some d := by
  interval_cases d <;> rfl

theorem hex4_of_hexShow (n : Nat) (h : n < 65536) :
    hex4? (hexDigitCh (n / 4096 % 16)) (hexDigitCh (n / 256 % 16))
      (hexDigitCh (n / 16 % 16)) (hexDigitCh (n % 16)) = some n := by
  unfold hex4?
  rw [hexVal_hexDigitCh _ (Nat.mod_lt _ (by norm_num)),
    hexVal_hexDigitCh _ (Nat.mod_lt _ (by norm_num)),
    hexVal_hexDigitCh _ (Nat.mod_lt _ (by norm_num)),
    hexVal_hexDigitCh _ (Nat.mod_lt _ (by norm_num))]
  show some ((((n / 4096 % 16) * 16 + n / 256 % 16) * 16 + n / 16 % 16) * 16 + n % 16) = some n
  congr 1
  omega

theorem char_not_surrogate (c : Char) : c.toNat < 0xD800 ∨ 0xDFFF < c.toNat := by
  rcases c.valid with h | h
  · exact Or.inl h
  · exact Or.inr h.1

theorem char_lt (c : Char) : c.toNat < 0x110000 := by
  rcases c.valid with h | h
  · exact Nat.lt_trans h (by norm_num)
  · exact h.2

theorem psb_cons (c : Char) (r : List Char) :
    parseStringBody (c :: r) =
      (if c = '"' then some ([], r)
       else if c = '\\' then parseStringEscape r
       else if c.toNat < 0x20 then none
       else (parseStringBody r).map (fun p => (c :: p.1, p.2))) := rfl

theorem pse_u_eq (a b c d : Char) (r : List Char) :
    parseStringEscape ('u' :: a :: b :: c :: d :: r) =
      (hex4? a b c d).bind (fun code =>
        if code < 0xD800 || 0xDFFF < code then
          (parseStringBody r).map (fun p => (Char.ofNat code :: p.1, p.2))
        else if code ≤ 0xDBFF then
          parseLowSurrogate code r
        else none) := rfl

theorem pls_eq (code : Nat) (a2 b2 c2 d2 : Char) (r2 : List Char) :
    parseLowSurrogate code ('\\' :: 'u' :: a2 :: b2 :: c2 :: d2 :: r2) =
      (hex4? a2 b2 c2 d2).bind (fun lo =>
        if 0xDC00 ≤ lo && lo ≤ 0xDFFF then
          (parseStringBody r2).map (fun p =>
            (Char.ofNat (0x10000 + (code - 0xD800) * 0x400 + (lo - 0xDC00)) :: p.1, p.2))
        else none) := rfl

theorem psb_dumpChar (c : Char) (x : List Char) :
    parseStringBody (dumpChar c ++ x) =
      (parseStringBody x).map (fun p => (c :: p.1, p.2)) := by
  by_cases h1 : c = '"'
  · subst h1
    rfl
  · by_cases h2 : c = '\\'
    · subst h2
      rfl
    · by_cases h3 : c = '\x08'
      · subst h3
        rfl
      · by_cases h4 : c = '\x0c'
        · subst h4
          rfl
        · by_cases h5 : c = '\n'
          · subst h5
            rfl
          · by_cases h6 : c = '\r'
            · subst h6
              rfl
            · by_cases h7 : c = '\t'
              · subst h7
                rfl
              · unfold dumpChar
                rw [if_neg h1, if_neg h2, if_neg h3, if_neg h4, if_neg h5, if_neg h6, if_neg h7]
                by_cases h8 : (0x20 ≤ c.toNat && c.toNat ≤ 0x7E) = true
                · rw [if_pos h8]
                  rw [Bool.and_eq_true] at h8
                  have hlo := of_decide_eq_true h8.1
                  rw [List.singleton_append, psb_cons, if_neg h1, if_neg h2,
                    if_neg (by omega : ¬c.toNat < 0x20)]
                · rw [if_neg h8]
                  by_cases h9 : c.toNat < 0x10000
                  · rw [if_pos h9]
                    simp only [hexShow4, List.cons_append, List.nil_append]
                    rw [show ('\\' : Char) :: 'u' :: hexDigitCh (c.toNat / 4096 % 16) ::
                        hexDigitCh (c.toNat / 256 % 16) :: hexDigitCh (c.toNat / 16 % 16) ::
                        hexDigitCh (c.toNat % 16) :: x =
                      '\\' :: ('u' :: hexDigitCh (c.toNat / 4096 % 16) ::
                        hexDigitCh (c.toNat / 256 % 16) :: hexDigitCh (c.toNat / 16 % 16) ::
                        hexDigitCh (c.toNat % 16) :: x) from rfl]
                    rw [show parseStringBody ('\\' :: ('u' :: hexDigitCh (c.toNat / 4096 % 16) ::
                        hexDigitCh (c.toNat / 256 % 16) :: hexDigitCh (c.toNat / 16 % 16) ::
                        hexDigitCh (c.toNat % 16) :: x)) =
                      parseStringEscape ('u' :: hexDigitCh (c.toNat / 4096 % 16) ::
                        hexDigitCh (c.toNat / 256 % 16) :: hexDigitCh (c.toNat / 16 % 16) ::
                        hexDigitCh (c.toNat % 16) :: x) from rfl]
                    rw [pse_u_eq, hex4_of_hexShow c.toNat h9, Option.some_bind]
                    rw [if_pos (by
                      rcases char_not_surrogate c with h | h
                      · simp [h]
                      · simp [h])]
                    rw [Char.ofNat_toNat]
                  · rw [if_neg h9]
                    push_neg at h9
                    have hm : c.toNat - 0x10000 < 0x100000 := by
                      have := char_lt c
                      omega
                    have hdiv : (c.toNat - 0x10000) / 0x400 < 0x400 := by omega
                    have hmod : (c.toNat - 0x10000) % 0x400 < 0x400 :=
                      Nat.mod_lt _ (by norm_num)
                    have hhi : 0xD800 + (c.toNat - 0x10000) / 0x400 < 65536 := by omega
                    have hlo : 0xDC00 + (c.toNat - 0x10000) % 0x400 < 65536 := by omega
                    simp only [hexShow4, List.cons_append, List.nil_append, List.append_assoc]
                    rw [show parseStringBody ('\\' :: 'u' ::
                        hexDigitCh ((0xD800 + (c.toNat - 0x10000) / 0x400) / 4096 % 16) ::
                        hexDigitCh ((0xD800 + (c.toNat - 0x10000) / 0x400) / 256 % 16) ::
                        hexDigitCh ((0xD800 + (c.toNat - 0x10000) / 0x400) / 16 % 16) ::
                        hexDigitCh ((0xD800 + (c.toNat - 0x10000) / 0x400) % 16) ::
                        ('\\' :: 'u' ::
                          hexDigitCh ((0xDC00 + (c.toNat - 0x10000) % 0x400) / 4096 % 16) ::
                          hexDigitCh ((0xDC00 + (c.toNat - 0x10000) % 0x400) / 256 % 16) ::
                          hexDigitCh ((0xDC00 + (c.toNat - 0x10000) % 0x400) / 16 % 16) ::
                          hexDigitCh ((0xDC00 + (c.toNat - 0x10000) % 0x400) % 16) :: x)) =
                      parseStringEscape ('u' ::
                        hexDigitCh ((0xD800 + (c.toNat - 0x10000) / 0x400) / 4096 % 16) ::
                        hexDigitCh ((0xD800 + (c.toNat - 0x10000) / 0x400) / 256 % 16) ::
                        hexDigitCh ((0xD800 + (c.toNat - 0x10000) / 0x400) / 16 % 16) ::
                        hexDigitCh ((0xD800 + (c.toNat - 0x10000) / 0x400) % 16) ::
                        ('\\' :: 'u' ::
                          hexDigitCh ((0xDC00 + (c.toNat - 0x10000) % 0x400) / 4096 % 16) ::
                          hexDigitCh ((0xDC00 + (c.toNat - 0x10000) % 0x400) / 256 % 16) ::
                          hexDigitCh ((0xDC00 + (c.toNat - 0x10000) % 0x400) / 16 % 16) ::
                          hexDigitCh ((0xDC00 + (c.toNat - 0x10000) % 0x400) % 16) :: x)) from rfl]
                    rw [pse_u_eq, hex4_of_hexShow _ hhi, Option.some_bind]
                    rw [if_neg (by
                      simp only [Bool.or_eq_true, decide_eq_true_eq, not_or, not_lt]
                      omega)]
                    rw [if_pos (by omega : 0xD800 + (c.toNat - 0x10000) / 0x400 ≤ 0xDBFF)]
                    rw [pls_eq, hex4_of_hexShow _ hlo, Option.some_bind]
                    rw [if_pos (by
                      simp only [Bool.and_eq_true, decide_eq_true_eq]
                      omega)]
                    have hcomb : 0x10000 +
                        (0xD800 + (c.toNat - 0x10000) / 0x400 - 0xD800) * 0x400 +
                        (0xDC00 + (c.toNat - 0x10000) % 0x400 - 0xDC00) = c.toNat := by
                      omega
                    rw [hcomb, Char.ofNat_toNat]

theorem psb_dump (cs x : List Char) :
    parseStringBody (dumpStringBody cs ++ x) = some (cs, x) := by
  induction cs with
  | nil => simp [dumpStringBody, parseStringBody]
  | cons c cs ih =>
    rw [show dumpStringBody (c :: cs) = dumpChar c ++ dumpStringBody cs from rfl]
    rw [List.append_assoc, psb_dumpChar, ih]
    rfl

theorem dumpMembers_cons_eq (kv : String × Json) (kvs : List (String × Json)) (ind : Nat) :
    dumpMembers (kv :: kvs) ind =
      '\n' :: spacesN ind ++
        ((dumpString kv.1 ++ ':' :: ' ' :: kv.2.dump ind) ++ membersSep kvs ind) := by
  obtain ⟨k, v⟩ := kv
  cases kvs with
  | nil => simp [dumpMembers, membersSep]
  | cons kv2 kvs2 => simp [dumpMembers, membersSep]

theorem dumpElems_cons_eq (e : Json) (es : List Json) (ind : Nat) :
    dumpElems (e :: es) ind = '\n' :: spacesN ind ++ (e.dump ind ++ elemSep es ind) := by
  cases es with
  | nil => simp [dumpElems, elemSep]
  | cons e2 es2 => simp [dumpElems, elemSep]

theorem skipWs_cons_nonws (c : Char) (t : List Char) (h : isJsonWs c = false) :
    skipWs (c :: t) = c :: t := by
  unfold skipWs
  rw [List.dropWhile_cons, h]
  simp

theorem skipWs_newline_indent (n : Nat) (X : List Char) :
    skipWs (('\n' :: spacesN n) ++ X) = skipWs X := by
  unfold skipWs
  apply dropWhileB_append_all
  intro c hc
  rcases List.mem_cons.mp hc with rfl | hm
  · rfl
  · rw [List.eq_of_mem_replicate hm]
    rfl

theorem isDigit_not_ws (c : Char) (h : c.isDigit = true) : isJsonWs c = false := by
  by_contra hw
  rw [Bool.not_eq_false] at hw
  simp only [isJsonWs, Bool.or_eq_true, decide_eq_true_eq] at hw
  rcases hw with ((rfl | rfl) | rfl) | rfl <;> simp [Char.isDigit] at h

theorem numStart_ne (c : Char) (h : c = '-' ∨ c.isDigit = true) :
    ¬c = '\x7b' ∧ ¬c = '[' ∧ ¬c = '"' ∧ ¬c = 't' ∧ ¬c = 'f' ∧ ¬c = 'n' := by
  rcases h with rfl | hd
  · refine ⟨?_, ?_, ?_, ?_, ?_, ?_⟩ <;> decide
  · refine ⟨?_, ?_, ?_, ?_, ?_, ?_⟩ <;>
      (intro e; subst e; simp [Char.isDigit] at hd)

theorem intLit_head (n : Int) :
    ∃ c t, intLit n = c :: t ∧ (c = '-' ∨ c.isDigit = true) := by
  unfold intLit
  by_cases hn : n < 0
  · rw [if_pos hn]
    exact ⟨'-', _, rfl, Or.inl rfl⟩
  · rw [if_neg hn]
    obtain ⟨c, t, hct, hcd⟩ := intDigitsOk_head_digit _ (natDigitsBE_ok n.natAbs)
    exact ⟨c, t, by simp [hct], Or.inr hcd⟩

theorem parseIntDigits_head (l : List Char) (p : List Char × List Char)
    (h : parseIntDigits l = some p) : ∃ c t, l = c :: t ∧ c.isDigit = true := by
  cases l with
  | nil => simp [parseIntDigits] at h
  | cons c t =>
    refine ⟨c, t, rfl, ?_⟩
    simp only [parseIntDigits] at h
    by_cases h0 : c = '0'
    · subst h0
      rfl
    · rw [if_neg h0] at h
      by_cases hd : c.isDigit = true
      · exact hd
      · rw [eq_false_of_ne_true hd] at h
        simp at h

theorem parseNumber_head (l : List Char) (j : Json) (r : List Char)
    (h : parseNumber l = some (j, r)) :
    ∃ c t, l = c :: t ∧ (c = '-' ∨ c.isDigit = true) := by
  cases l with
  | nil => simp [parseNumber] at h
  | cons c t =>
    refine ⟨c, t, rfl, ?_⟩
    simp only [parseNumber] at h
    by_cases hm : c = '-'
    · exact Or.inl hm
    · rw [if_neg hm] at h
      unfold parseNumberCore at h
      cases hpid : parseIntDigits (c :: t) with
      | none => rw [hpid] at h; simp at h
      | some p =>
        obtain ⟨c', t', hct, hcd⟩ := parseIntDigits_head _ _ hpid
        rw [List.cons.injEq] at hct
        exact Or.inr (hct.1 ▸ hcd)

theorem string_mk_data (s : String) : String.mk s.data = s := rfl

theorem dump_head_nonws (j : Json) (ind : Nat) (hwf : JWF j) :
    ∃ c t, Json.dump j ind = c :: t ∧ isJsonWs c = false := by
  cases j with
  | null => exact ⟨'n', _, rfl, rfl⟩
  | bool b =>
    cases b with
    | false => exact ⟨'f', _, rfl, rfl⟩
    | true => exact ⟨'t', _, rfl, rfl⟩
  | num n =>
    obtain ⟨c, t, hct, hcd⟩ := intLit_head n
    refine ⟨c, t, by simp [Json.dump, hct], ?_⟩
    rcases hcd with rfl | hd
    · rfl
    · exact isDigit_not_ws c hd
  | numF lit =>
    cases hwf with
    | numF _ hp =>
      obtain ⟨c, t, hct, hcd⟩ := parseNumber_head _ _ _ hp
      refine ⟨c, t, by simp [Json.dump, hct], ?_⟩
      rcases hcd with rfl | hd
      · rfl
      · exact isDigit_not_ws c hd
  | str s => exact ⟨'"', _, rfl, rfl⟩
  | arr es =>
    cases es with
    | nil => exact ⟨'[', _, rfl, rfl⟩
    | cons e es' => exact ⟨'[', _, rfl, rfl⟩
  | obj kvs =>
    cases kvs with
    | nil => exact ⟨'\x7b', _, rfl, rfl⟩
    | cons kv kvs' => exact ⟨'\x7b', _, rfl, rfl⟩

theorem skipWs_cons_ws (c : Char) (t : List Char) (h : isJsonWs c = true) :
    skipWs (c :: t) = skipWs t := by
  unfold skipWs
  rw [List.dropWhile_cons, h]
  simp

theorem skipWs_dump_append (j : Json) (ind : Nat) (X : List Char) (hwf : JWF j) :
    skipWs (Json.dump j ind ++ X) = Json.dump j ind ++ X := by
  obtain ⟨c, t, hct, hcw⟩ := dump_head_nonws j ind hwf
  rw [hct, List.cons_append]
  exact skipWs_cons_nonws c (t ++ X) hcw

theorem skipWs_dump (j : Json) (ind : Nat) (hwf : JWF j) :
    skipWs (Json.dump j ind) = Json.dump j ind := by
  obtain ⟨c, t, hct, hcw⟩ := dump_head_nonws j ind hwf
  rw [hct]
  exact skipWs_cons_nonws c t hcw

theorem numStart_ne_close (c : Char) (h : c = '-' ∨ c.isDigit = true) :
    ¬c = '\x7d' ∧ ¬c = ']' := by
  rcases h with rfl | hd
  · exact ⟨by decide, by decide⟩
  · exact ⟨fun e => by subst e; simp [Char.isDigit] at hd,
      fun e => by subst e; simp [Char.isDigit] at hd⟩

theorem dump_head_props (j : Json) (ind : Nat) (hwf : JWF j) :
    ∃ c t, Json.dump j ind = c :: t ∧ isJsonWs c = false ∧ ¬c = '\x7d' ∧ ¬c = ']' := by
  cases j with
  | null => exact ⟨'n', _, rfl, rfl, by decide, by decide⟩
  | bool b =>
    cases b with
    | false => exact ⟨'f', _, rfl, rfl, by decide, by decide⟩
    | true => exact ⟨'t', _, rfl, rfl, by decide, by decide⟩
  | num n =>
    obtain ⟨c, t, hct, hcd⟩ := intLit_head n
    obtain ⟨h1, h2⟩ := numStart_ne_close c hcd
    refine ⟨c, t, by simp [Json.dump, hct], ?_, h1, h2⟩
    rcases hcd with rfl | hd
    · rfl
    · exact isDigit_not_ws c hd
  | numF lit =>
    cases hwf with
    | numF _ hp =>
      obtain ⟨c, t, hct, hcd⟩ := parseNumber_head _ _ _ hp
      obtain ⟨h1, h2⟩ := numStart_ne_close c hcd
      refine ⟨c, t, by simp [Json.dump, hct], ?_, h1, h2⟩
      rcases hcd with rfl | hd
      · rfl
      · exact isDigit_not_ws c hd
  | str s => exact ⟨'"', _, rfl, rfl, by decide, by decide⟩
  | arr es =>
    cases es with
    | nil => exact ⟨'[', _, rfl, rfl, by decide, by decide⟩
    | cons e es' => exact ⟨'[', _, rfl, rfl, by decide, by decide⟩
  | obj kvs =>
    cases kvs with
    | nil => exact ⟨'\x7b', _, rfl, rfl, by decide, by decide⟩
    | cons kv kvs' => exact ⟨'\x7b', _, rfl, rfl, by decide, by decide⟩

theorem measureJ_pos (j : Json) : 1 ≤ measureJ j := by
  cases j <;> simp [measureJ] <;> omega

theorem measureElems_pos (es : List Json) : 1 ≤ measureElems es := by
  cases es <;> simp [measureElems] <;> omega

theorem measureMembers_pos (kvs : List (String × Json)) : 1 ≤ measureMembers kvs := by
  cases kvs <;> simp [measureMembers] <;> omega

theorem pv_cons (f : Nat) (c : Char) (r : List Char) :
    parseValue (f + 1) (c :: r) =
      (if c = '\x7b' then
        match skipWs r with
        | [] => Option.map (fun p => (Json.obj p.1, p.2)) (parseMembers f [])
        | c2 :: r2 =>
          if c2 = '\x7d' then some (Json.obj [], r2)
          else Option.map (fun p => (Json.obj p.1, p.2)) (parseMembers f (c2 :: r2))
      else if c = '[' then
        match skipWs r with
        | [] => Option.map (fun p => (Json.arr p.1, p.2)) (parseElems f [])
        | c2 :: r2 =>
          if c2 = ']' then some (Json.arr [], r2)
          else Option.map (fun p => (Json.arr p.1, p.2)) (parseElems f (c2 :: r2))
      else if c = '"' then
        match parseStringBody r with
        | some (cs, rest) => some (Json.str (String.mk cs), rest)
        | none => none
      else if c = 't' then
        if r.take 3 = ['r', 'u', 'e'] then some (Json.bool true, r.drop 3) else none
      else if c = 'f' then
        if r.take 4 = ['a', 'l', 's', 'e'] then some (Json.bool false, r.drop 4) else none
      else if c = 'n' then
        if r.take 3 = ['u', 'l', 'l'] then some (Json.null, r.drop 3) else none
      else if c = '-' || c.isDigit then parseNumber (c :: r)
      else none) := rfl

theorem pv_numhead (f : Nat) (c : Char) (r : List Char) (h : c = '-' ∨ c.isDigit = true) :
    parseValue (f + 1) (c :: r) = parseNumber (c :: r) := by
  obtain ⟨h1, h2, h3, h4, h5, h6⟩ := numStart_ne c h
  rw [pv_cons, if_neg h1, if_neg h2, if_neg h3, if_neg h4, if_neg h5, if_neg h6, if_pos]
  rcases h with rfl | hd
  · simp
  · simp [hd]

theorem pv_quote (f : Nat) (r : List Char) :
    parseValue (f + 1) ('"' :: r) =
      (match parseStringBody r with
      | some (cs, rest) => some (Json.str (String.mk cs), rest)
      | none => none) := rfl

theorem pv_obrace (f : Nat) (r : List Char) :
    parseValue (f + 1) ('\x7b' :: r) =
      (match skipWs r with
      | [] => Option.map (fun p => (Json.obj p.1, p.2)) (parseMembers f [])
      | c2 :: r2 =>
        if c2 = '\x7d' then some (Json.obj [], r2)
        else Option.map (fun p => (Json.obj p.1, p.2)) (parseMembers f (c2 :: r2))) := rfl

theorem pv_obrack (f : Nat) (r : List Char) :
    parseValue (f + 1) ('[' :: r) =
      (match skipWs r with
      | [] => Option.map (fun p => (Json.arr p.1, p.2)) (parseElems f [])
      | c2 :: r2 =>
        if c2 = ']' then some (Json.arr [], r2)
        else Option.map (fun p => (Json.arr p.1, p.2)) (parseElems f (c2 :: r2))) := rfl

theorem pm_quote (f : Nat) (r : List Char) :
    parseMembers (f + 1) ('"' :: r) =
      (match parseStringBody r with
      | some (kcs, r1) =>
        match skipWs r1 with
        | ':' :: r3 =>
          match parseValue f (skipWs r3) with
          | some (v, r4) =>
            match skipWs r4 with
            | ',' :: r6 =>
              match parseMembers f (skipWs r6) with
              | some (kvs, r7) => some (combineKV (String.mk kcs) v kvs, r7)
              | none => none
            | '\x7d' :: r6 => some ([(String.mk kcs, v)], r6)
            | _ => none
          | none => none
        | _ => none
      | none => none) := rfl

theorem pe_succ (f : Nat) (l : List Char) :
    parseElems (f + 1) l =
      (match parseValue f l with
      | some (v, r1) =>
        match skipWs r1 with
        | ',' :: r2 =>
          match parseElems f (skipWs r2) with
          | some (vs, r3) => some (v :: vs, r3)
          | none => none
        | ']' :: r2 => some ([v], r2)
        | _ => none
      | none => none) := rfl

theorem dump_parse_all : ∀ f : Nat,
    (∀ (j : Json) (ind : Nat) (rest : List Char), JWF j → numBoundary rest = true →
      measureJ j < f →
      parseValue f (Json.dump j ind ++ rest) = some (j, rest)) ∧
    (∀ (k : String) (v : Json) (kvs : List (String × Json)) (ind close : Nat)
        (rest : List Char), JWF v → (∀ kv ∈ kvs, JWF kv.2) →
      k ∉ kvs.map Prod.fst → (kvs.map Prod.fst).Nodup →
      measureMembers ((k, v) :: kvs) < f →
      parseMembers f ('"' :: (dumpStringBody k.data ++ (':' :: ' ' :: (Json.dump v ind ++
        (membersSep kvs ind ++ ('\n' :: (spacesN close ++ ('\x7d' :: rest)))))))) =
        some ((k, v) :: kvs, rest)) ∧
    (∀ (e : Json) (es : List Json) (ind close : Nat) (rest : List Char),
      JWF e → (∀ x ∈ es, JWF x) →
      measureElems (e :: es) < f →
      parseElems f (Json.dump e ind ++ (elemSep es ind ++
        ('\n' :: (spacesN close ++ (']' :: rest))))) =
        some (e :: es, rest)) := by
  intro f
  induction f with
  | zero =>
    refine ⟨?_, ?_, ?_⟩
    · intro j ind rest _ _ hf
      exact absurd hf (Nat.not_lt_zero _)
    · intro k v kvs ind close rest _ _ _ _ hm
      exact absurd hm (Nat.not_lt_zero _)
    · intro e es ind close rest _ _ hm
      exact absurd hm (Nat.not_lt_zero _)
  | succ f ih =>
    obtain ⟨ihv, ihm, ihe⟩ := ih
    refine ⟨?_, ?_, ?_⟩
    · intro j ind rest hwf hnb hf
      cases j with
      | null => rfl
      | bool b => cases b with | false => rfl | true => rfl
      | num n =>
        obtain ⟨c, t, hct, hor⟩ := intLit_head n
        rw [show Json.dump (Json.num n) ind = intLit n from rfl, hct, List.cons_append,
          pv_numhead f c (t ++ rest) hor, ← List.cons_append, ← hct]
        exact intLit_parse n rest hnb
      | numF lit =>
        cases hwf with
        | numF _ hp =>
          obtain ⟨c, t, hct, hor⟩ := parseNumber_head _ _ _ hp
          rw [show Json.dump (Json.numF lit) ind = lit.data from rfl, hct, List.cons_append,
            pv_numhead f c (t ++ rest) hor, ← List.cons_append, ← hct]
          rcases parseNumber_inv lit.data (Json.numF lit) [] hp with ⟨n, hn⟩ | ⟨lit', heq, hre⟩
          · exact Json.noConfusion hn
          · injection heq with hle
            subst hle
            exact hre rest hnb
      | str s =>
        rw [show Json.dump (Json.str s) ind ++ rest =
          '"' :: (dumpStringBody s.data ++ rest) from rfl, pv_quote, psb_dump]
      | arr es =>
        cases es with
        | nil => rfl
        | cons e es' =>
          cases hwf with
          | arr _ hall =>
            have he : JWF e := hall e (by simp)
            have hes : ∀ x ∈ es', JWF x := fun x hx => hall x (by simp [hx])
            have hm2 : measureElems (e :: es') < f := by
              rw [show measureJ (Json.arr (e :: es')) = 1 + measureElems (e :: es') from rfl] at hf
              omega
            have hshape : Json.dump (Json.arr (e :: es')) ind ++ rest =
                '[' :: (('\n' :: spacesN (ind + 2)) ++
                  (Json.dump e (ind + 2) ++ (elemSep es' (ind + 2) ++
                    ('\n' :: (spacesN ind ++ (']' :: rest)))))) := by
              have hd : Json.dump (Json.arr (e :: es')) ind =
                  '[' :: dumpElems (e :: es') (ind + 2) ++ '\n' :: spacesN ind ++ [']'] := by
                simp [Json.dump]
              rw [hd, dumpElems_cons_eq]
              simp
            rw [hshape, pv_obrack]
            obtain ⟨c, t, hct, hcw, hne1, hne2⟩ := dump_head_props e (ind + 2) he
            have hsk : skipWs (('\n' :: spacesN (ind + 2)) ++
                (Json.dump e (ind + 2) ++ (elemSep es' (ind + 2) ++
                  ('\n' :: (spacesN ind ++ (']' :: rest)))))) =
                c :: (t ++ (elemSep es' (ind + 2) ++
                  ('\n' :: (spacesN ind ++ (']' :: rest))))) := by
              rw [skipWs_newline_indent, skipWs_dump_append e (ind + 2) _ he, hct,
                List.cons_append]
            simp only [hsk, if_neg hne2]
            rw [show c :: (t ++ (elemSep es' (ind + 2) ++
                ('\n' :: (spacesN ind ++ (']' :: rest))))) =
              Json.dump e (ind + 2) ++ (elemSep es' (ind + 2) ++
                ('\n' :: (spacesN ind ++ (']' :: rest)))) by rw [hct, List.cons_append]]
            rw [ihe e es' (ind + 2) ind rest he hes hm2]
            rfl
      | obj kvs =>
        cases kvs with
        | nil => rfl
        | cons kv kvs' =>
          obtain ⟨k, v⟩ := kv
          cases hwf with
          | obj _ hall hnd0 =>
            have hv : JWF v := hall (k, v) (by simp)
            have hvs : ∀ x ∈ kvs', JWF x.2 := fun x hx => hall x (by simp [hx])
            simp only [List.map_cons, List.nodup_cons] at hnd0
            obtain ⟨hknotin, hnd'⟩ := hnd0
            have hm2 : measureMembers ((k, v) :: kvs') < f := by
              rw [show measureJ (Json.obj ((k, v) :: kvs')) =
                1 + measureMembers ((k, v) :: kvs') from rfl] at hf
              omega
            have hshape : Json.dump (Json.obj ((k, v) :: kvs')) ind ++ rest =
                '\x7b' :: (('\n' :: spacesN (ind + 2)) ++
                  ('"' :: (dumpStringBody k.data ++ (':' :: ' ' :: (Json.dump v (ind + 2) ++
                    (membersSep kvs' (ind + 2) ++
                      ('\n' :: (spacesN ind ++ ('\x7d' :: rest))))))))) := by
              have hd : Json.dump (Json.obj ((k, v) :: kvs')) ind =
                  '\x7b' :: dumpMembers ((k, v) :: kvs') (ind + 2) ++
                    '\n' :: spacesN ind ++ ['\x7d'] := by
                simp [Json.dump]
              rw [hd, dumpMembers_cons_eq]
              simp [dumpString]
            rw [hshape, pv_obrace]
            have hsk : skipWs (('\n' :: spacesN (ind + 2)) ++
                ('"' :: (dumpStringBody k.data ++ (':' :: ' ' :: (Json.dump v (ind + 2) ++
                  (membersSep kvs' (ind + 2) ++
                    ('\n' :: (spacesN ind ++ ('\x7d' :: rest))))))))) =
                '"' :: (dumpStringBody k.data ++ (':' :: ' ' :: (Json.dump v (ind + 2) ++
                  (membersSep kvs' (ind + 2) ++
                    ('\n' :: (spacesN ind ++ ('\x7d' :: rest))))))) := by
              rw [skipWs_newline_indent]
              exact skipWs_cons_nonws _ _ rfl
            have hpm := ihm k v kvs' (ind + 2) ind rest hv hvs hknotin hnd' hm2
            simp only [hsk, if_neg (show ¬('"' : Char) = '\x7d' by decide), hpm,
              Option.map_some']
    · intro k v kvs ind close rest hv hvs hknotin hnd hm
      rw [pm_quote]
      rw [show measureMembers ((k, v) :: kvs) =
        1 + measureJ v + measureMembers kvs from rfl] at hm
      have h1 := psb_dump k.data (':' :: ' ' :: (Json.dump v ind ++ (membersSep kvs ind ++
        ('\n' :: (spacesN close ++ ('\x7d' :: rest))))))
      have h2 : skipWs (':' :: ' ' :: (Json.dump v ind ++ (membersSep kvs ind ++
          ('\n' :: (spacesN close ++ ('\x7d' :: rest)))))) =
          ':' :: ' ' :: (Json.dump v ind ++ (membersSep kvs ind ++
          ('\n' :: (spacesN close ++ ('\x7d' :: rest))))) :=
        skipWs_cons_nonws _ _ rfl
      have h3 : skipWs (' ' :: (Json.dump v ind ++ (membersSep kvs ind ++
          ('\n' :: (spacesN close ++ ('\x7d' :: rest)))))) =
          Json.dump v ind ++ (membersSep kvs ind ++
          ('\n' :: (spacesN close ++ ('\x7d' :: rest)))) := by
        rw [skipWs_cons_ws ' ' _ rfl]
        exact skipWs_dump_append v ind _ hv
      have hnb2 : numBoundary (membersSep kvs ind ++
          ('\n' :: (spacesN close ++ ('\x7d' :: rest)))) = true := by
        cases kvs with
        | nil => rfl
        | cons a b => rfl
      have hmv : measureJ v < f := by omega
      have h4 : parseValue f (Json.dump v ind ++ (membersSep kvs ind ++
          ('\n' :: (spacesN close ++ ('\x7d' :: rest))))) =
          some (v, membersSep kvs ind ++ ('\n' :: (spacesN close ++ ('\x7d' :: rest)))) :=
        ihv v ind _ hv hnb2 hmv
      simp only [h1, h2, h3, h4]
      cases kvs with
      | nil =>
        have h5 : skipWs (membersSep ([] : List (String × Json)) ind ++
            ('\n' :: (spacesN close ++ ('\x7d' :: rest)))) = '\x7d' :: rest := by
          rw [show membersSep ([] : List (String × Json)) ind = [] from rfl, List.nil_append,
            show ('\n' :: (spacesN close ++ ('\x7d' :: rest))) =
              ('\n' :: spacesN close) ++ ('\x7d' :: rest) by simp, skipWs_newline_indent]
          exact skipWs_cons_nonws _ _ rfl
        simp only [h5]
      | cons kv2 kvs2 =>
        obtain ⟨k2, v2⟩ := kv2
        have hv2 : JWF v2 := hvs (k2, v2) (by simp)
        have hvs2 : ∀ x ∈ kvs2, JWF x.2 := fun x hx => hvs x (by simp [hx])
        simp only [List.map_cons, List.nodup_cons] at hnd
        obtain ⟨hk2notin, hnd2⟩ := hnd
        have hm2 : measureMembers ((k2, v2) :: kvs2) < f := by
          rw [show measureMembers ((k2, v2) :: kvs2) =
            1 + measureJ v2 + measureMembers kvs2 from rfl] at hm ⊢
          omega
        have h5 : skipWs (membersSep ((k2, v2) :: kvs2) ind ++
            ('\n' :: (spacesN close ++ ('\x7d' :: rest)))) =
            ',' :: (dumpMembers ((k2, v2) :: kvs2) ind ++
              ('\n' :: (spacesN close ++ ('\x7d' :: rest)))) := by
          rw [show membersSep ((k2, v2) :: kvs2) ind =
            ',' :: dumpMembers ((k2, v2) :: kvs2) ind from rfl, List.cons_append]
          exact skipWs_cons_nonws _ _ rfl
        have h6 : skipWs (dumpMembers ((k2, v2) :: kvs2) ind ++
            ('\n' :: (spacesN close ++ ('\x7d' :: rest)))) =
            '"' :: (dumpStringBody k2.data ++ (':' :: ' ' :: (Json.dump v2 ind ++
              (membersSep kvs2 ind ++ ('\n' :: (spacesN close ++ ('\x7d' :: rest))))))) := by
          rw [dumpMembers_cons_eq,
            show (('\n' :: spacesN ind ++
                ((dumpString k2 ++ ':' :: ' ' :: Json.dump v2 ind) ++ membersSep kvs2 ind)) ++
              ('\n' :: (spacesN close ++ ('\x7d' :: rest)))) =
              ('\n' :: spacesN ind) ++
                ('"' :: (dumpStringBody k2.data ++ (':' :: ' ' :: (Json.dump v2 ind ++
                  (membersSep kvs2 ind ++
                    ('\n' :: (spacesN close ++ ('\x7d' :: rest)))))))) by
              simp [dumpString],
            skipWs_newline_indent]
          exact skipWs_cons_nonws _ _ rfl
        have h7 := ihm k2 v2 kvs2 ind close rest hv2 hvs2 hk2notin hnd2 hm2
        simp only [h5, h6, h7]
        show some (combineKV k v ((k2, v2) :: kvs2), rest) =
          some ((k, v) :: (k2, v2) :: kvs2, rest)
        rw [combineKV_of_not_mem k v ((k2, v2) :: kvs2) hknotin]
    · intro e es ind close rest he hes hm
      rw [pe_succ]
      rw [show measureElems (e :: es) = 1 + measureJ e + measureElems es from rfl] at hm
      have hnb1 : numBoundary (elemSep es ind ++
          ('\n' :: (spacesN close ++ (']' :: rest)))) = true := by
        cases es with
        | nil => rfl
        | cons a b => rfl
      have hme : measureJ e < f := by omega
      have h1 : parseValue f (Json.dump e ind ++ (elemSep es ind ++
          ('\n' :: (spacesN close ++ (']' :: rest))))) =
          some (e, elemSep es ind ++ ('\n' :: (spacesN close ++ (']' :: rest)))) :=
        ihv e ind _ he hnb1 hme
      simp only [h1]
      cases es with
      | nil =>
        have h2 : skipWs (elemSep ([] : List Json) ind ++
            ('\n' :: (spacesN close ++ (']' :: rest)))) = ']' :: rest := by
          rw [show elemSep ([] : List Json) ind = [] from rfl, List.nil_append,
            show ('\n' :: (spacesN close ++ (']' :: rest))) =
              ('\n' :: spacesN close) ++ (']' :: rest) by simp, skipWs_newline_indent]
          exact skipWs_cons_nonws _ _ rfl
        simp only [h2]
      | cons e2 es2 =>
        have he2 : JWF e2 := hes e2 (by simp)
        have hes2 : ∀ x ∈ es2, JWF x := fun x hx => hes x (by simp [hx])
        have hm2 : measureElems (e2 :: es2) < f := by
          rw [show measureElems (e2 :: es2) = 1 + measureJ e2 + measureElems es2 from rfl]
            at hm ⊢
          omega
        have h2 : skipWs (elemSep (e2 :: es2) ind ++
            ('\n' :: (spacesN close ++ (']' :: rest)))) =
            ',' :: (dumpElems (e2 :: es2) ind ++
              ('\n' :: (spacesN close ++ (']' :: rest)))) := by
          rw [show elemSep (e2 :: es2) ind = ',' :: dumpElems (e2 :: es2) ind from rfl,
            List.cons_append]
          exact skipWs_cons_nonws _ _ rfl
        have h3 : skipWs (dumpElems (e2 :: es2) ind ++
            ('\n' :: (spacesN close ++ (']' :: rest)))) =
            Json.dump e2 ind ++ (elemSep es2 ind ++
              ('\n' :: (spacesN close ++ (']' :: rest)))) := by
          rw [dumpElems_cons_eq,
            show (('\n' :: spacesN ind ++ (Json.dump e2 ind ++ elemSep es2 ind)) ++
                ('\n' :: (spacesN close ++ (']' :: rest)))) =
              ('\n' :: spacesN ind) ++ (Json.dump e2 ind ++ (elemSep es2 ind ++
                ('\n' :: (spacesN close ++ (']' :: rest))))) by simp,
            skipWs_newline_indent]
          exact skipWs_dump_append e2 ind _ he2
        have h4 := ihe e2 es2 ind close rest he2 hes2 hm2
        simp only [h2, h3, h4]

theorem measure_le_dump_all : ∀ n : Nat,
    (∀ j : Json, sizeOf j ≤ n → JWF j → ∀ ind, measureJ j ≤ (Json.dump j ind).length) ∧
    (∀ es : List Json, sizeOf es ≤ n → (∀ e ∈ es, JWF e) → ∀ ind,
      measureElems es ≤ (dumpElems es ind).length + 1) ∧
    (∀ kvs : List (String × Json), sizeOf kvs ≤ n → (∀ kv ∈ kvs, JWF kv.2) → ∀ ind,
      measureMembers kvs ≤ (dumpMembers kvs ind).length + 1) := by
  intro n
  induction n with
  | zero =>
    refine ⟨?_, ?_, ?_⟩
    · intro j hsz _ _
      cases j <;> simp at hsz <;> omega
    · intro es hsz _ _
      cases es <;> simp at hsz <;> omega
    · intro kvs hsz _ _
      cases kvs <;> simp at hsz <;> omega
  | succ n ih =>
    obtain ⟨ihj, ihes, ihms⟩ := ih
    refine ⟨?_, ?_, ?_⟩
    · intro j hsz hwf ind
      cases j with
      | null => simp [measureJ, Json.dump]
      | bool b => cases b <;> simp [measureJ, Json.dump]
      | num m =>
        obtain ⟨c, t, hct, _⟩ := intLit_head m
        rw [show measureJ (Json.num m) = 1 from rfl,
          show Json.dump (Json.num m) ind = intLit m from rfl, hct, List.length_cons]
        omega
      | numF lit =>
        cases hwf with
        | numF _ hp =>
          obtain ⟨c, t, hct, _⟩ := parseNumber_head _ _ _ hp
          rw [show measureJ (Json.numF lit) = 1 from rfl,
            show Json.dump (Json.numF lit) ind = lit.data from rfl, hct, List.length_cons]
          omega
      | str s =>
        rw [show measureJ (Json.str s) = 1 from rfl,
          show Json.dump (Json.str s) ind = '"' :: dumpStringBody s.data from rfl,
          List.length_cons]
        omega
      | arr es =>
        cases hwf with
        | arr _ hall =>
          have hsz' : sizeOf es ≤ n := by simp at hsz; omega
          have hrec := ihes es hsz' hall (ind + 2)
          cases es with
          | nil =>
            rw [show measureJ (Json.arr []) = 1 + measureElems [] from rfl,
              show measureElems ([] : List Json) = 1 from rfl]
            simp [Json.dump]
          | cons e es' =>
            have hd : Json.dump (Json.arr (e :: es')) ind =
                '[' :: dumpElems (e :: es') (ind + 2) ++ '\n' :: spacesN ind ++ [']'] := by
              simp [Json.dump]
            rw [show measureJ (Json.arr (e :: es')) =
              1 + measureElems (e :: es') from rfl, hd]
            simp only [List.append_assoc, List.cons_append, List.length_cons,
              List.length_append, List.length_nil]
            omega
      | obj kvs =>
        cases hwf with
        | obj _ hall _ =>
          have hsz' : sizeOf kvs ≤ n := by simp at hsz; omega
          have hrec := ihms kvs hsz' hall (ind + 2)
          cases kvs with
          | nil =>
            rw [show measureJ (Json.obj []) = 1 + measureMembers [] from rfl,
              show measureMembers ([] : List (String × Json)) = 1 from rfl]
            simp [Json.dump]
          | cons kv kvs' =>
            have hd : Json.dump (Json.obj (kv :: kvs')) ind =
                '\x7b' :: dumpMembers (kv :: kvs') (ind + 2) ++
                  '\n' :: spacesN ind ++ ['\x7d'] := by
              simp [Json.dump]
            rw [show measureJ (Json.obj (kv :: kvs')) =
              1 + measureMembers (kv :: kvs') from rfl, hd]
            simp only [List.append_assoc, List.cons_append, List.length_cons,
              List.length_append, List.length_nil]
            omega
    · intro es hsz hall ind
      cases es with
      | nil =>
        rw [show measureElems ([] : List Json) = 1 from rfl,
          show dumpElems ([] : List Json) ind = [] from rfl]
        simp
      | cons e es' =>
        have hsze : sizeOf e ≤ n := by simp at hsz; omega
        have hszes : sizeOf es' ≤ n := by simp at hsz; omega
        have h1 := ihj e hsze (hall e (by simp)) ind
        rw [show measureElems (e :: es') = 1 + measureJ e + measureElems es' from rfl]
        cases es' with
        | nil =>
          have hd : dumpElems [e] ind = '\n' :: spacesN ind ++ Json.dump e ind := by
            simp [dumpElems]
          rw [show measureElems ([] : List Json) = 1 from rfl, hd]
          simp only [List.cons_append, List.length_cons, List.length_append]
          omega
        | cons e2 es2 =>
          have h2 := ihes (e2 :: es2) hszes (fun x hx => hall x (by simp [hx])) ind
          have hd : dumpElems (e :: e2 :: es2) ind =
              '\n' :: spacesN ind ++ Json.dump e ind ++ ',' :: dumpElems (e2 :: es2) ind := by
            simp [dumpElems]
          rw [hd]
          simp only [List.append_assoc, List.cons_append, List.length_cons,
            List.length_append]
          omega
    · intro kvs hsz hall ind
      cases kvs with
      | nil =>
        rw [show measureMembers ([] : List (String × Json)) = 1 from rfl,
          show dumpMembers ([] : List (String × Json)) ind = [] from rfl]
        simp
      | cons kv kvs' =>
        obtain ⟨k, v⟩ := kv
        have hszv : sizeOf v ≤ n := by simp at hsz; omega
        have hszkvs : sizeOf kvs' ≤ n := by simp at hsz; omega
        have h1 := ihj v hszv (hall (k, v) (by simp)) ind
        rw [show measureMembers ((k, v) :: kvs') =
          1 + measureJ v + measureMembers kvs' from rfl]
        cases kvs' with
        | nil =>
          have hd : dumpMembers [(k, v)] ind =
              '\n' :: spacesN ind ++ dumpString k ++ ':' :: ' ' :: Json.dump v ind := by
            simp [dumpMembers]
          rw [show measureMembers ([] : List (String × Json)) = 1 from rfl, hd]
          simp only [List.append_assoc, List.cons_append, List.length_cons,
            List.length_append]
          omega
        | cons kv2 kvs2 =>
          have h2 := ihms (kv2 :: kvs2) hszkvs (fun x hx => hall x (by simp [hx])) ind
          have hd : dumpMembers ((k, v) :: kv2 :: kvs2) ind =
              '\n' :: spacesN ind ++ dumpString k ++ ':' :: ' ' :: Json.dump v ind ++
                ',' :: dumpMembers (kv2 :: kvs2) ind := by
            simp [dumpMembers]
          rw [hd]
          simp only [List.append_assoc, List.cons_append, List.length_cons,
            List.length_append]
          omega

theorem measure_le_dump (j : Json) (ind : Nat) (hwf : JWF j) :
    measureJ j ≤ (Json.dump j ind).length :=
  (measure_le_dump_all (sizeOf j)).1 j le_rfl hwf ind

theorem json_loads_wf (s : String) (j : Json) (h : json_loads s = some j) : JWF j := by
  have h' : (match parseValue ((skipWs s.data).length + 1) (skipWs s.data) with
      | some (j0, rest) => if skipWs rest = [] then some j0 else none
      | none => none) = some j := h
  cases hp : parseValue ((skipWs s.data).length + 1) (skipWs s.data) with
  | none =>
    rw [hp] at h'
    simp at h'
  | some p =>
    obtain ⟨j0, rest⟩ := p
    rw [hp] at h'
    have h'' : (if skipWs rest = [] then some j0 else none) = some j := h'
    by_cases hr : skipWs rest = []
    · rw [if_pos hr] at h''
      injection h'' with hj
      subst hj
      exact (parse_wf_all _).1 _ _ _ hp
    · rw [if_neg hr] at h''
      exact Option.noConfusion h''

/-- C7: the download/export of a plan is an identity transform: for every
plan value obtained by parsing (extraction success), serializing it with
`json.dumps(plan, indent=2)` (main.py line 512) and strict-parsing the result
back yields exactly the original plan value, with no field re-derived or
altered. -/
theorem c7_dump_roundtrip (raw : String) (plan : Json)
    (h : extract_and_parse_json raw = some plan) :
    json_loads (json_dumps_indent2 plan) = some plan := by
  cases hj : json_loads (String.mk (extract_candidate raw)) with
  | none =>
    have hnone : extract_and_parse_json raw = none := by
      unfold extract_and_parse_json extract_core json_loads_exc
      rw [hj]
    rw [hnone] at h
    exact Option.noConfusion h
  | some j0 =>
    have hsome : extract_and_parse_json raw = some j0 := by
      unfold extract_and_parse_json extract_core json_loads_exc
      rw [hj]
    rw [hsome] at h
    injection h with hj0
    rw [hj0] at hj
    have hwf : JWF plan := json_loads_wf _ plan hj
    show (match parseValue ((skipWs (Json.dump plan 0)).length + 1)
        (skipWs (Json.dump plan 0)) with
      | some (j0, rest) => if skipWs rest = [] then some j0 else none
      | none => none) = some plan
    rw [skipWs_dump plan 0 hwf]
    have hfuel : measureJ plan < (Json.dump plan 0).length + 1 :=
      Nat.lt_succ_of_le (measure_le_dump plan 0 hwf)
    have hp := (dump_parse_all ((Json.dump plan 0).length + 1)).1 plan 0 [] hwf rfl hfuel
    rw [List.append_nil] at hp
    rw [hp]
    rfl

theorem c7_dump_roundtrip_witness :
    extract_and_parse_json "\x7b\"a\": [1, 2]\x7d" =
        some (Json.obj [("a", Json.arr [Json.num 1, Json.num 2])]) ∧
    json_loads (json_dumps_indent2 (Json.obj [("a", Json.arr [Json.num 1, Json.num 2])])) =
        some (Json.obj [("a", Json.arr [Json.num 1, Json.num 2])]) :=
  ⟨rfl, c7_dump_roundtrip "\x7b\"a\": [1, 2]\x7d" (Json.obj [("a", Json.arr [Json.num 1, Json.num 2])]) rfl⟩
